import Mathlib

/-!
# Verification of the `lrucache` Go package

A shallow embedding of the cache engine in `lrucache.go`, the expiry heap in
`expiration_heap.go`, the codec in `serde.go` and the data model in
`cache_item.go`, together with proofs settling the specification claims.

Modelling conventions:
* `time.Time` and `time.Duration` are modelled as `Int` (nanoseconds since an
  arbitrary origin; the zero value of `time.Time` is `0`).  `t.Before u` is
  `t < u` and `t.After u` is `u < t`.
* Go byte slices that hold serialized values are modelled as `String`
  (`serde.go` only ever produces and consumes textual bytes).
* The Go map `expirationHeap.expiresAt` is modelled as an association list with
  replace-on-insert semantics; reading an absent key yields the zero value `0`,
  exactly as a Go map read does.
* The `container/heap` algorithms (`heap.Push`, `heap.Pop`, `up`, `down`) from
  the Go standard library are embedded directly, specialised to the
  `sort.Interface` implementation of `expirationHeap`: `Len` is the length of
  `items`, `Less i j` compares `expiresAt[items[i]] < expiresAt[items[j]]`,
  `Swap` swaps two positions of `items`, `Push` appends, `Pop` removes and
  returns the last element.
* The hashicorp `go-memdb` table behind the cache is modelled as a list of
  `CacheItem` with a unique `Key` index: `Insert` replaces-or-appends,
  `First` is a point lookup, `Delete` fails with a not-found error when the
  object is absent, and inserting or deleting an object whose `Key` is the
  empty string fails because `StringFieldIndex` rejects empty values
  ("missing primary index").
* Each operation takes the current time as an explicit argument and returns,
  besides its Go result, the successor state and the list of eviction-hook
  invocations `(key, value)` it performed (the calls made to
  `opts.EvictCallback` when a callback is configured).
* The mutex `lock` and the background goroutine are not modelled as such;
  operations are related sequentially, which matches the linearization of the
  Go code under its single lock.  The ticker body of `expirationManager` is
  the embedded `removeExpiredItems`.
-/

namespace LRUCache

/-! ## List indexing helpers

`nth l i` is `l[i]` with the Go zero value `""` out of range, and `lswap`
is `sort.Interface.Swap` realised with `List.set`.
-/

def nth (l : List String) (i : Nat) : String := l.getD i ""

def lswap (l : List String) (i j : Nat) : List String :=
  (l.set i (nth l j)).set j (nth l i)

theorem length_lswap (l : List String) (i j : Nat) :
    (lswap l i j).length = l.length := by
  simp [lswap]

theorem nth_set_ne (l : List String) (i m : Nat) (a : String) (h : m ≠ i) :
    nth (l.set i a) m = nth l m := by
  simp [nth, List.getD, List.getElem?_set_ne (Ne.symm h)]

theorem nth_set_self (l : List String) (i : Nat) (a : String) (h : i < l.length) :
    nth (l.set i a) i = a := by
  simp [nth, List.getD, List.getElem?_set_self, h]

theorem nth_lswap_fst (l : List String) (i j : Nat) (hi : i < l.length)
    (hj : j < l.length) : nth (lswap l i j) i = nth l j := by
  unfold lswap
  rcases eq_or_ne i j with rfl | hij
  · rw [nth_set_self _ _ _ (by simpa using hi)]
  · rw [nth_set_ne _ _ _ _ hij, nth_set_self _ _ _ hi]

theorem nth_lswap_snd (l : List String) (i j : Nat) (hj : j < l.length) :
    nth (lswap l i j) j = nth l i := by
  unfold lswap
  rw [nth_set_self _ _ _ (by simpa using hj)]

theorem nth_lswap_other (l : List String) (i j m : Nat) (h1 : m ≠ i) (h2 : m ≠ j) :
    nth (lswap l i j) m = nth l m := by
  unfold lswap
  rw [nth_set_ne _ _ _ _ h2, nth_set_ne _ _ _ _ h1]

theorem cons_set_perm (t : List String) (k : Nat) (x : String) (hk : k < t.length) :
    (nth t k :: t.set k x).Perm (x :: t) := by
  induction t generalizing k with
  | nil => cases hk
  | cons y t ih =>
    cases k with
    | zero =>
      simpa [nth] using List.Perm.swap x y t
    | succ k =>
      have hk' : k < t.length := by simpa using hk
      have h1 : (nth (y :: t) (k + 1) :: (y :: t).set (k + 1) x) =
          nth t k :: y :: t.set k x := rfl
      rw [h1]
      exact ((List.Perm.swap y (nth t k) (t.set k x)).trans
        (List.Perm.cons y (ih k hk'))).trans (List.Perm.swap x y t)

theorem lswap_perm (l : List String) (i j : Nat) (hi : i < l.length)
    (hj : j < l.length) : (lswap l i j).Perm l := by
  induction l generalizing i j with
  | nil => cases hi
  | cons x t ih =>
    cases i with
    | zero =>
      cases j with
      | zero =>
        have h : lswap (x :: t) 0 0 = x :: t := rfl
        rw [h]
      | succ j =>
        have hj' : j < t.length := by simpa using hj
        have h : lswap (x :: t) 0 (j + 1) = nth t j :: t.set j x := rfl
        rw [h]
        exact cons_set_perm t j x hj'
    | succ i =>
      cases j with
      | zero =>
        have hi' : i < t.length := by simpa using hi
        have h : lswap (x :: t) (i + 1) 0 = nth t i :: t.set i x := rfl
        rw [h]
        exact cons_set_perm t i x hi'
      | succ j =>
        have hi' : i < t.length := by simpa using hi
        have hj' : j < t.length := by simpa using hj
        have h : lswap (x :: t) (i + 1) (j + 1) = x :: lswap t i j := rfl
        rw [h]
        exact List.Perm.cons x (ih i j hi' hj')

/-! ## The `container/heap` algorithms

`goUp` and `goDown` are the sift functions `up` and `down` of Go's
`container/heap`, with `Less i j` instantiated to
`pri (items[i]) < pri (items[j])` — the `expirationHeap.Less` of
`expiration_heap.go`, where `pri` reads the `expiresAt` map.
-/

/-- `up(h, j)` from `container/heap`: repeatedly swap `j` with its parent
`i = (j-1)/2` while `Less j i`.  The position strictly decreases on every
iteration, so the loop runs at most `j+1` times; the structural `fuel`
argument (always instantiated with at least `j+1`) makes the definition
kernel-computable while coinciding exactly with the Go loop. -/
def goUp (pri : String → Int) : Nat → List String → Nat → List String
  | 0, l, _ => l
  | fuel + 1, l, j =>
    if j = 0 then l
    else if pri (nth l j) < pri (nth l ((j - 1) / 2)) then
      goUp pri fuel (lswap l ((j - 1) / 2) j) ((j - 1) / 2)
    else l

/-- The child `j` selected by `down(h, i, n)`: the left child `j1 = 2*i+1`,
or the right child `j2 = 2*i+2` when it exists and `Less j2 j1`. -/
def downChild (pri : String → Int) (l : List String) (i n : Nat) : Nat :=
  if 2 * i + 2 < n ∧ pri (nth l (2 * i + 2)) < pri (nth l (2 * i + 1)) then
    2 * i + 2
  else 2 * i + 1

theorem downChild_lt (pri : String → Int) (l : List String) (i n : Nat)
    (h : 2 * i + 1 < n) : downChild pri l i n < n := by
  unfold downChild; split <;> omega

theorem downChild_gt (pri : String → Int) (l : List String) (i n : Nat) :
    i < downChild pri l i n := by
  unfold downChild; split <;> omega

/-- `down(h, i, n)` from `container/heap`: sift `i` down within `items[0:n]`,
descending to the smaller child while it is `Less` than the current node.
The position strictly increases while staying below `n`, so `n - i` fuel
suffices; instantiations pass at least that much. -/
def goDown (pri : String → Int) : Nat → List String → Nat → Nat → List String
  | 0, l, _, _ => l
  | fuel + 1, l, i, n =>
    if 2 * i + 1 < n then
      if pri (nth l (downChild pri l i n)) < pri (nth l i) then
        goDown pri fuel (lswap l i (downChild pri l i n)) (downChild pri l i n) n
      else l
    else l

/-- `heap.Push(h, x)`: `h.Push(x)` appends to `items`, then `up(h, len-1)`. -/
def heapPush (pri : String → Int) (l : List String) (x : String) : List String :=
  goUp pri (l.length + 1) (l ++ [x]) l.length

/-- The array state inside `heap.Pop(h)` after `h.Swap(0, n)` and
`down(h, 0, n)` with `n = h.Len()-1`. -/
def popArr (pri : String → Int) (l : List String) : List String :=
  goDown pri l.length (lswap l 0 (l.length - 1)) 0 (l.length - 1)

/-- `heap.Pop(h)`: swap the root with the last slot, `down(0, len-1)`, then
`expirationHeap.Pop` removes and returns the last element. -/
def heapPop (pri : String → Int) (l : List String) : String × List String :=
  (nth (popArr pri l) (l.length - 1), (popArr pri l).take (l.length - 1))

/-- The binary min-heap ordering property of `items[0:n]` under priority
`pri`: every node's priority is at most its children's. -/
def heapPropN (pri : String → Int) (l : List String) (n : Nat) : Prop :=
  ∀ k, k < n → 0 < k → pri (nth l ((k - 1) / 2)) ≤ pri (nth l k)

/-- The heap ordering property of the whole array. -/
def heapProp (pri : String → Int) (l : List String) : Prop :=
  heapPropN pri l l.length

instance (pri : String → Int) (l : List String) (n : Nat) :
    Decidable (heapPropN pri l n) := by
  unfold heapPropN; infer_instance

instance (pri : String → Int) (l : List String) : Decidable (heapProp pri l) := by
  unfold heapProp; infer_instance

/-! ## Auxiliary index lemmas -/

theorem nth_append_lt (l : List String) (x : String) (m : Nat) (h : m < l.length) :
    nth (l ++ [x]) m = nth l m := by
  simp [nth, List.getD, List.getElem?_append_left h]

theorem nth_append_self (l : List String) (x : String) :
    nth (l ++ [x]) l.length = x := by
  simp [nth, List.getD]

theorem nth_take (l : List String) (n m : Nat) (h : m < n) :
    nth (l.take n) m = nth l m := by
  simp [nth, List.getD, List.getElem?_take, h]

theorem nth_mem (l : List String) (m : Nat) (h : m < l.length) : nth l m ∈ l := by
  have : nth l m = l[m] := by simp [nth, List.getD, List.getElem?_eq_getElem h]
  rw [this]
  exact List.getElem_mem h

theorem mem_nth (l : List String) (b : String) (h : b ∈ l) :
    ∃ m, m < l.length ∧ nth l m = b := by
  obtain ⟨m, hm, hb⟩ := List.getElem_of_mem h
  exact ⟨m, hm, by simp [nth, List.getD, List.getElem?_eq_getElem hm, hb]⟩

/-! ## Heap correctness -/

/-- In a heap, the root has minimal priority. -/
theorem root_min (pri : String → Int) (l : List String) (hp : heapProp pri l) :
    ∀ j, j < l.length → pri (nth l 0) ≤ pri (nth l j) := by
  intro j
  induction j using Nat.strong_induction_on with
  | _ j ih =>
    intro hj
    rcases Nat.eq_zero_or_pos j with rfl | hj0
    · exact le_refl _
    · have hpar : (j - 1) / 2 < j := by omega
      exact le_trans (ih _ hpar (lt_trans hpar hj)) (hp j hj hj0)

theorem length_goUp (pri : String → Int) (fuel : Nat) (l : List String) (j : Nat) :
    (goUp pri fuel l j).length = l.length := by
  induction fuel generalizing l j with
  | zero => rfl
  | succ fuel ih =>
    rw [goUp]
    split
    next => rfl
    next h =>
      split
      next => rw [ih, length_lswap]
      next => rfl

theorem perm_goUp (pri : String → Int) (fuel : Nat) (l : List String) (j : Nat)
    (hj : j < l.length) : (goUp pri fuel l j).Perm l := by
  induction fuel generalizing l j with
  | zero => exact List.Perm.refl l
  | succ fuel ih =>
    rw [goUp]
    split
    next => exact List.Perm.refl l
    next h =>
      split
      next =>
        have hi : (j - 1) / 2 < l.length := lt_trans (by omega) hj
        have := ih (lswap l ((j - 1) / 2) j) ((j - 1) / 2)
          (by rw [length_lswap]; exact hi)
        exact this.trans (lswap_perm l _ _ hi hj)
      next => exact List.Perm.refl l

theorem length_goDown (pri : String → Int) (fuel : Nat) (l : List String)
    (i n : Nat) : (goDown pri fuel l i n).length = l.length := by
  induction fuel generalizing l i with
  | zero => rfl
  | succ fuel ih =>
    rw [goDown]
    split
    next h =>
      split
      next => rw [ih, length_lswap]
      next => rfl
    next => rfl

theorem perm_goDown (pri : String → Int) (fuel : Nat) (l : List String)
    (i n : Nat) (hn : n ≤ l.length) : (goDown pri fuel l i n).Perm l := by
  induction fuel generalizing l i with
  | zero => exact List.Perm.refl l
  | succ fuel ih =>
    rw [goDown]
    split
    next h =>
      split
      next =>
        have hj : downChild pri l i n < n := downChild_lt pri l i n h
        have hi : i < l.length := by omega
        have := ih (lswap l i (downChild pri l i n)) (downChild pri l i n)
          (by rw [length_lswap]; exact hn)
        exact this.trans (lswap_perm l i _ hi (by omega))
      next => exact List.Perm.refl l
    next => exact List.Perm.refl l

theorem nth_goDown_ge (pri : String → Int) (fuel : Nat) (l : List String)
    (i n m : Nat) (hm : n ≤ m) : nth (goDown pri fuel l i n) m = nth l m := by
  induction fuel generalizing l i with
  | zero => rfl
  | succ fuel ih =>
    rw [goDown]
    split
    next h =>
      split
      next =>
        have hj : downChild pri l i n < n := downChild_lt pri l i n h
        rw [ih, nth_lswap_other]
        · omega
        · omega
      next => rfl
    next => rfl

theorem downChild_le_left (pri : String → Int) (l : List String) (i n : Nat) :
    pri (nth l (downChild pri l i n)) ≤ pri (nth l (2 * i + 1)) := by
  unfold downChild
  split
  next h => exact le_of_lt h.2
  next h => exact le_refl _

theorem downChild_le_right (pri : String → Int) (l : List String) (i n : Nat)
    (h2n : 2 * i + 2 < n) :
    pri (nth l (downChild pri l i n)) ≤ pri (nth l (2 * i + 2)) := by
  unfold downChild
  split
  next h => exact le_refl _
  next h =>
    rcases not_and_or.mp h with hc | hc
    · exact absurd h2n hc
    · exact le_of_not_lt hc

theorem downChild_cases (pri : String → Int) (l : List String) (i n : Nat) :
    downChild pri l i n = 2 * i + 1 ∨ downChild pri l i n = 2 * i + 2 := by
  unfold downChild
  split
  · exact Or.inr rfl
  · exact Or.inl rfl

/-- Correctness of `up`: if the heap ordering holds everywhere except possibly
on the edge into `j`, and additionally the parent of `j` is already bounded by
the children of `j`, then sifting `j` up restores the heap ordering. -/
theorem goUp_heap (pri : String → Int) (fuel j : Nat) (l : List String)
    (hfuel : j < fuel) (hj : j < l.length)
    (h1 : ∀ k, k < l.length → 0 < k → k ≠ j →
      pri (nth l ((k - 1) / 2)) ≤ pri (nth l k))
    (h2 : ∀ c, c < l.length → (c = 2 * j + 1 ∨ c = 2 * j + 2) →
      pri (nth l ((j - 1) / 2)) ≤ pri (nth l c)) :
    heapProp pri (goUp pri fuel l j) := by
  induction fuel generalizing j l with
  | zero => exact absurd hfuel (by omega)
  | succ fuel ih => ?_
  rw [goUp]
  split
  next hj0 =>
    subst hj0
    intro k hk hk0
    exact h1 k hk hk0 (by omega)
  next hj0 =>
    have hij : (j - 1) / 2 < j := by omega
    have hi : (j - 1) / 2 < l.length := lt_trans hij hj
    split
    next hlt =>
      apply ih ((j - 1) / 2) (lswap l ((j - 1) / 2) j) (by omega)
      · rw [length_lswap]; exact hi
      · -- the heap edges hold everywhere except into the new hole
        intro k hk hk0 hki
        rw [length_lswap] at hk
        rcases eq_or_ne k j with rfl | hkj
        · rw [nth_lswap_fst l _ k hi hj, nth_lswap_snd l _ k hj]
          exact le_of_lt hlt
        · have hnk : nth (lswap l ((j - 1) / 2) j) k = nth l k :=
            nth_lswap_other l _ j k hki hkj
          rcases eq_or_ne ((k - 1) / 2) ((j - 1) / 2) with hpi | hpi
          · rw [hpi, nth_lswap_fst l _ j hi hj, hnk]
            have hk1 := h1 k hk hk0 hkj
            rw [hpi] at hk1
            exact le_trans (le_of_lt hlt) hk1
          · rcases eq_or_ne ((k - 1) / 2) j with hpj | hpj
            · rw [hpj, nth_lswap_snd l _ j hj, hnk]
              exact h2 k hk (by omega)
            · rw [nth_lswap_other l _ j _ hpi hpj, hnk]
              exact h1 k hk hk0 hkj
      · -- the grandparent is bounded by the children of the new hole
        intro c hc hcch
        rw [length_lswap] at hc
        have hci : ((j - 1) / 2) < c := by omega
        rcases Nat.eq_zero_or_pos ((j - 1) / 2) with hi0 | hi0
        · have hq : (((j - 1) / 2 : Nat) - 1) / 2 = (j - 1) / 2 := by omega
          rw [hq, nth_lswap_fst l _ j hi hj]
          rcases eq_or_ne c j with rfl | hcj
          · rw [nth_lswap_snd l _ c hj]
            exact le_of_lt hlt
          · rw [nth_lswap_other l _ j c (by omega) hcj]
            have hc1 := h1 c hc (by omega) hcj
            have hcp : (c - 1) / 2 = (j - 1) / 2 := by omega
            rw [hcp] at hc1
            exact le_trans (le_of_lt hlt) hc1
        · have hpne1 : (((j - 1) / 2 : Nat) - 1) / 2 ≠ (j - 1) / 2 := by omega
          have hpne2 : (((j - 1) / 2 : Nat) - 1) / 2 ≠ j := by omega
          rw [nth_lswap_other l _ j _ hpne1 hpne2]
          have hbase := h1 ((j - 1) / 2) hi hi0 (by omega)
          rcases eq_or_ne c j with rfl | hcj
          · rw [nth_lswap_snd l _ c hj]
            exact hbase
          · rw [nth_lswap_other l _ j c (by omega) hcj]
            have hc1 := h1 c hc (by omega) hcj
            have hcp : (c - 1) / 2 = (j - 1) / 2 := by omega
            rw [hcp] at hc1
            exact le_trans hbase hc1
    next hge =>
      intro k hk hk0
      rcases eq_or_ne k j with rfl | hkj
      · exact le_of_not_lt hge
      · exact h1 k hk hk0 hkj

/-- Correctness of `down`: if the heap ordering holds within `items[0:n]`
everywhere except possibly on the edges out of `i`, and the parent of `i` is
already bounded by the children of `i`, sifting `i` down restores the heap
ordering on `items[0:n]`. -/
theorem goDown_heap (pri : String → Int) (fuel n i : Nat) (l : List String)
    (hfuel : n - i ≤ fuel) (hn : n ≤ l.length)
    (h1 : ∀ k, k < n → 0 < k → (k - 1) / 2 ≠ i →
      pri (nth l ((k - 1) / 2)) ≤ pri (nth l k))
    (h2 : ∀ c, c < n → (c = 2 * i + 1 ∨ c = 2 * i + 2) → 0 < i →
      pri (nth l ((i - 1) / 2)) ≤ pri (nth l c)) :
    heapPropN pri (goDown pri fuel l i n) n := by
  induction fuel generalizing i l with
  | zero =>
    intro k hk hk0
    exact h1 k hk hk0 (by omega)
  | succ fuel ih => ?_
  rw [goDown]
  split
  next hch =>
    have hJn : downChild pri l i n < n := downChild_lt pri l i n hch
    have hJi : i < downChild pri l i n := downChild_gt pri l i n
    have hJ12 := downChild_cases pri l i n
    have hiLen : i < l.length := by omega
    have hJLen : downChild pri l i n < l.length := by omega
    split
    next hlt =>
      apply ih (downChild pri l i n) (lswap l i (downChild pri l i n)) (by omega)
      · rw [length_lswap]; exact hn
      · intro k hk hk0 hkJ
        rcases eq_or_ne k i with rfl | hki
        · have hpne1 : ((k - 1) / 2 : Nat) ≠ k := by omega
          have hpne2 : ((k - 1) / 2 : Nat) ≠ downChild pri l k n := by omega
          rw [nth_lswap_other l k _ _ hpne1 hpne2,
            nth_lswap_fst l k _ hiLen hJLen]
          exact h2 (downChild pri l k n) hJn hJ12 hk0
        · rcases eq_or_ne k (downChild pri l i n) with rfl | hkJ2
          · have hpk : ((downChild pri l i n : Nat) - 1) / 2 = i := by omega
            rw [hpk, nth_lswap_fst l i _ hiLen hJLen,
              nth_lswap_snd l i _ hJLen]
            exact le_of_lt hlt
          · have hnk : nth (lswap l i (downChild pri l i n)) k = nth l k :=
              nth_lswap_other l i _ k hki hkJ2
            rcases eq_or_ne ((k - 1) / 2) i with hpi | hpi
            · rw [hpi, nth_lswap_fst l i _ hiLen hJLen, hnk]
              have hk12 : k = 2 * i + 1 ∨ k = 2 * i + 2 := by omega
              rcases hk12 with rfl | rfl
              · exact downChild_le_left pri l i n
              · exact downChild_le_right pri l i n hk
            · rw [nth_lswap_other l i _ _ hpi hkJ, hnk]
              exact h1 k hk hk0 hpi
      · intro c hc hcch hJ0
        have hcJ : downChild pri l i n < c := by omega
        have hpJ : ((downChild pri l i n : Nat) - 1) / 2 = i := by omega
        rw [hpJ, nth_lswap_fst l i _ hiLen hJLen,
          nth_lswap_other l i _ c (by omega) (by omega)]
        have hc1 := h1 c hc (by omega) (by omega)
        have hcp : (c - 1) / 2 = downChild pri l i n := by omega
        rw [hcp] at hc1
        exact hc1
    next hge =>
      intro k hk hk0
      rcases eq_or_ne ((k - 1) / 2) i with hpi | hpi
      · rw [hpi]
        have hk12 : k = 2 * i + 1 ∨ k = 2 * i + 2 := by omega
        have hbase := le_of_not_lt hge
        rcases hk12 with rfl | rfl
        · exact le_trans hbase (downChild_le_left pri l i n)
        · exact le_trans hbase (downChild_le_right pri l i n hk)
      · exact h1 k hk hk0 hpi
  next hch =>
    intro k hk hk0
    rcases eq_or_ne ((k - 1) / 2) i with hpi | hpi
    · exfalso; omega
    · exact h1 k hk hk0 hpi

/-! ## `heap.Push` and `heap.Pop` facts -/

theorem heapPush_length (pri : String → Int) (l : List String) (x : String) :
    (heapPush pri l x).length = l.length + 1 := by
  unfold heapPush
  rw [length_goUp]
  simp

theorem heapPush_perm (pri : String → Int) (l : List String) (x : String) :
    (heapPush pri l x).Perm (l ++ [x]) := by
  unfold heapPush
  exact perm_goUp pri (l.length + 1) (l ++ [x]) l.length (by simp)

theorem heapPush_heap (pri : String → Int) (l : List String) (x : String)
    (hp : heapProp pri l) : heapProp pri (heapPush pri l x) := by
  unfold heapPush
  apply goUp_heap pri (l.length + 1) l.length (l ++ [x]) (by omega) (by simp)
  · intro k hk hk0 hkj
    have hklt : k < l.length := by
      simp only [List.length_append, List.length_singleton] at hk
      omega
    rw [nth_append_lt l x k hklt, nth_append_lt l x _ (by omega)]
    exact hp k hklt hk0
  · intro c hc hcch
    simp only [List.length_append, List.length_singleton] at hc
    omega

theorem popArr_length (pri : String → Int) (l : List String) :
    (popArr pri l).length = l.length := by
  unfold popArr
  rw [length_goDown, length_lswap]

theorem popArr_perm (pri : String → Int) (l : List String) (h : l ≠ []) :
    (popArr pri l).Perm l := by
  have hpos : 0 < l.length := List.length_pos.mpr h
  unfold popArr
  exact (perm_goDown pri l.length _ 0 (l.length - 1)
    (by rw [length_lswap]; omega)).trans
    (lswap_perm l 0 (l.length - 1) hpos (by omega))

theorem heapPop_fst (pri : String → Int) (l : List String) (h : l ≠ []) :
    (heapPop pri l).1 = nth l 0 := by
  have hpos : 0 < l.length := List.length_pos.mpr h
  show nth (popArr pri l) (l.length - 1) = nth l 0
  unfold popArr
  rw [nth_goDown_ge pri l.length _ 0 (l.length - 1) (l.length - 1) (le_refl _),
    nth_lswap_snd l 0 (l.length - 1) (by omega)]

theorem heapPop_length (pri : String → Int) (l : List String) :
    (heapPop pri l).2.length = l.length - 1 := by
  show ((popArr pri l).take (l.length - 1)).length = l.length - 1
  rw [List.length_take, popArr_length]
  omega

theorem heapPop_perm (pri : String → Int) (l : List String) (h : l ≠ []) :
    (nth l 0 :: (heapPop pri l).2).Perm l := by
  have hpos : 0 < l.length := List.length_pos.mpr h
  have hlen : (popArr pri l).length = l.length := popArr_length pri l
  have hn : l.length - 1 < (popArr pri l).length := by omega
  have hdrop : (popArr pri l).drop (l.length - 1) = [nth (popArr pri l) (l.length - 1)] := by
    rw [List.drop_eq_getElem_cons hn, List.drop_eq_nil_of_le (by omega)]
    have : (popArr pri l)[l.length - 1] = nth (popArr pri l) (l.length - 1) := by
      simp [nth, List.getD, List.getElem?_eq_getElem hn]
    rw [this]
  have hsplit : (popArr pri l).take (l.length - 1) ++
      [nth (popArr pri l) (l.length - 1)] = popArr pri l := by
    conv_rhs => rw [← List.take_append_drop (l.length - 1) (popArr pri l)]
    rw [hdrop]
  have hfst : nth (popArr pri l) (l.length - 1) = nth l 0 := heapPop_fst pri l h
  show (nth l 0 :: (popArr pri l).take (l.length - 1)).Perm l
  have hstep : ((popArr pri l).take (l.length - 1) ++
      [nth (popArr pri l) (l.length - 1)]).Perm l := by
    rw [hsplit]; exact popArr_perm pri l h
  rw [hfst] at hstep
  have hcons : (nth l 0 :: (popArr pri l).take (l.length - 1)).Perm
      ((popArr pri l).take (l.length - 1) ++ [nth l 0]) :=
    @List.perm_append_comm String [nth l 0] ((popArr pri l).take (l.length - 1))
  exact hcons.trans hstep

theorem heapPop_heap (pri : String → Int) (l : List String) (hp : heapProp pri l)
    (h : l ≠ []) : heapProp pri (heapPop pri l).2 := by
  have hpos : 0 < l.length := List.length_pos.mpr h
  have hpropN : heapPropN pri (popArr pri l) (l.length - 1) := by
    unfold popArr
    apply goDown_heap pri l.length (l.length - 1) 0 (lswap l 0 (l.length - 1))
      (by omega) (by rw [length_lswap]; omega)
    · intro k hk hk0 hkp
      rw [nth_lswap_other l 0 (l.length - 1) k (by omega) (by omega),
        nth_lswap_other l 0 (l.length - 1) ((k - 1) / 2) (by omega) (by omega)]
      exact hp k (by omega) hk0
    · intro c hc hcch h0
      exact absurd h0 (by omega)
  show heapProp pri ((popArr pri l).take (l.length - 1))
  intro k hk hk0
  rw [List.length_take, popArr_length] at hk
  have hkn : k < l.length - 1 := by omega
  rw [nth_take _ _ _ hkn, nth_take _ _ _ (by omega)]
  exact hpropN k hkn hk0

theorem heapPop_min (pri : String → Int) (l : List String) (hp : heapProp pri l)
    (h : l ≠ []) : ∀ x ∈ l, pri (heapPop pri l).1 ≤ pri x := by
  intro x hx
  obtain ⟨m, hm, hb⟩ := mem_nth l x hx
  rw [heapPop_fst pri l h, ← hb]
  exact root_min pri l hp m hm

/-! ## Repeated popping -/

/-- The fuelled body of `popAll`: each pop shortens the array by one, so
`l.length` fuel runs the loop to emptiness. -/
def popAllF (pri : String → Int) : Nat → List String → List String
  | 0, _ => []
  | fuel + 1, l =>
    if l = [] then []
    else (heapPop pri l).1 :: popAllF pri fuel (heapPop pri l).2

/-- Repeatedly `heap.Pop` until the heap is empty, collecting the keys in pop
order (the priority function, i.e. the `expiresAt` map, is left untouched). -/
def popAll (pri : String → Int) (l : List String) : List String :=
  popAllF pri l.length l

theorem popAllF_perm (pri : String → Int) (fuel : Nat) (l : List String)
    (hfuel : l.length ≤ fuel) : (popAllF pri fuel l).Perm l := by
  induction fuel generalizing l with
  | zero =>
    have hl : l = [] := List.length_eq_zero.mp (by omega)
    subst hl
    exact List.Perm.refl _
  | succ fuel ih =>
    rw [popAllF]
    split
    next h => rw [h]
    next h =>
      have hpos : 0 < l.length := List.length_pos.mpr h
      have hrec := ih (heapPop pri l).2 (by rw [heapPop_length]; omega)
      have hcons := heapPop_perm pri l h
      rw [← heapPop_fst pri l h] at hcons
      exact (List.Perm.cons _ hrec).trans hcons

theorem popAll_perm (pri : String → Int) (l : List String) :
    (popAll pri l).Perm l :=
  popAllF_perm pri l.length l (le_refl _)

theorem popAllF_sorted (pri : String → Int) (fuel : Nat) (l : List String)
    (hfuel : l.length ≤ fuel) (hp : heapProp pri l) :
    List.Pairwise (fun a b => pri a ≤ pri b) (popAllF pri fuel l) := by
  induction fuel generalizing l with
  | zero => exact List.Pairwise.nil
  | succ fuel ih =>
    rw [popAllF]
    split
    next h => exact List.Pairwise.nil
    next h =>
      have hpos : 0 < l.length := List.length_pos.mpr h
      refine List.Pairwise.cons ?_ (ih (heapPop pri l).2
        (by rw [heapPop_length]; omega) (heapPop_heap pri l hp h))
      intro b hb
      have hbrest : b ∈ (heapPop pri l).2 :=
        (popAllF_perm pri fuel _ (by rw [heapPop_length]; omega)).subset hb
      have hbl : b ∈ l := (heapPop_perm pri l h).subset (List.mem_cons_of_mem _ hbrest)
      exact heapPop_min pri l hp h b hbl

/-- Heapsort correctness for the expiry index: popping repeatedly from a heap
that satisfies the heap ordering yields non-decreasing priorities. -/
theorem popAll_sorted (pri : String → Int) (l : List String)
    (hp : heapProp pri l) :
    List.Pairwise (fun a b => pri a ≤ pri b) (popAll pri l) :=
  popAllF_sorted pri l.length l (le_refl _) hp

/-! ## The codec (`serde.go`)

`serialize`/`deserialize` call into Go's `fmt`, `strconv` and `encoding/json`
packages.  Those library functions are modelled below from their documented
behaviour; the repository code itself is the `serialize`/`deserialize`
switch logic further down.
-/

/-- The decimal digit character of `d < 10`. -/
def digitChar (d : Nat) : Char := Char.ofNat (48 + d)

/-- The fuelled digit loop behind `natDigits`: the value shrinks by a factor
of ten per step, so `n+1` fuel always suffices. -/
def natDigitsF : Nat → Nat → List Char
  | 0, _ => []
  | fuel + 1, n =>
    if n < 10 then [digitChar n]
    else natDigitsF fuel (n / 10) ++ [digitChar (n % 10)]

/-- Decimal digits of `n`, most significant first (as `fmt` prints them). -/
def natDigits (n : Nat) : List Char := natDigitsF (n + 1) n

/-- `fmt.Sprintf` with the `%d` verb on a (signed) integer. -/
def intToStr (n : Int) : String :=
  if n < 0 then String.mk ('-' :: natDigits n.natAbs)
  else String.mk (natDigits n.natAbs)

def digitVal (c : Char) : Nat := c.toNat - 48

def digitsToNat (cs : List Char) : Nat :=
  cs.foldl (fun a c => 10 * a + digitVal c) 0

/-- The digits-and-bounds part of `strconv.Atoi`: a non-empty run of decimal
digits whose value fits in a 64-bit `int` (Go `ParseInt` with `base` 10 and
`bitSize` 0 on a 64-bit platform; underscores are rejected because the base
is given explicitly). -/
def goAtoiDigits (neg : Bool) (ds : List Char) : Option Int :=
  if ds = [] then none
  else if ds.all Char.isDigit then
    if neg then
      if (-(digitsToNat ds : Int)) < -(2 ^ 63) then none
      else some (-(digitsToNat ds : Int))
    else
      if (2 ^ 63 : Int) - 1 < (digitsToNat ds : Int) then none
      else some (digitsToNat ds)
  else none

/-- `strconv.Atoi`: optional sign, then decimal digits, 64-bit range. -/
def goAtoi (s : String) : Option Int :=
  match s.data with
  | [] => none
  | c :: rest =>
    if c = '-' then goAtoiDigits true rest
    else if c = '+' then goAtoiDigits false rest
    else goAtoiDigits false (c :: rest)

/-- `strconv.ParseBool`: accepts exactly these twelve strings. -/
def goParseBool (s : String) : Option Bool :=
  if s = "1" ∨ s = "t" ∨ s = "T" ∨ s = "true" ∨ s = "TRUE" ∨ s = "True" then
    some true
  else if s = "0" ∨ s = "f" ∨ s = "F" ∨ s = "false" ∨ s = "FALSE" ∨ s = "False" then
    some false
  else none

/-- A Go `float64` as produced by `strconv.ParseFloat`: finite values are
carried as the exact rational of the parsed literal (IEEE-754 rounding to the
nearest binary64 is not modelled; no claim depends on a rounded value),
plus the special values accepted by `ParseFloat`. -/
inductive GoFloat where
  | finite (q : ℚ)
  | inf (neg : Bool)
  | nan

def isHexDigitCh (c : Char) : Bool :=
  c.isDigit || ('a' ≤ c && c ≤ 'f') || ('A' ≤ c && c ≤ 'F')

/-- The scanning loop of `strconv`'s `underscoreOK`: an underscore may only
sit between a digit (or the `0x` prefix) and a digit. -/
def underscoreScan (hex : Bool) (saw : Char) (cs : List Char) : Bool :=
  match cs with
  | [] => saw ≠ '_'
  | c :: rest =>
    if c = '_' then
      if saw ≠ '0' then false else underscoreScan hex '_' rest
    else if (if hex then isHexDigitCh c else c.isDigit) then
      underscoreScan hex '0' rest
    else if saw = '_' then false
    else underscoreScan hex '!' rest

/-- `strconv`'s `underscoreOK`. -/
def underscoreOK (cs : List Char) : Bool :=
  match cs with
  | c :: r =>
    if c = '-' ∨ c = '+' then
      match r with
      | '0' :: x :: r2 =>
        if x = 'x' ∨ x = 'X' then underscoreScan true '0' r2
        else underscoreScan false '^' r
      | _ => underscoreScan false '^' r
    else
      match cs with
      | '0' :: x :: r2 =>
        if x = 'x' ∨ x = 'X' then underscoreScan true '0' r2
        else underscoreScan false '^' cs
      | _ => underscoreScan false '^' cs
  | [] => underscoreScan false '^' cs

/-- Overflow threshold of `float64`: decimal values at or beyond
`2^1024 - 2^970` round to `+Inf`, which `ParseFloat` reports as `ErrRange`
(and `encoding/json` turns into an unmarshalling error). -/
def maxFloatBound : ℚ := 2 ^ 1024 - 2 ^ 970

/-- Build the `ParseFloat` result for a non-negative finite magnitude,
failing (ErrRange) on overflow. -/
def mkFiniteFloat (neg : Bool) (q : ℚ) : Option GoFloat :=
  if maxFloatBound ≤ q then none
  else some (.finite (if neg then -q else q))

def splitAtDot (cs : List Char) : List Char × Option (List Char) :=
  match cs.dropWhile (fun c => c != '.') with
  | [] => (cs.takeWhile (fun c => c != '.'), none)
  | _ :: fp => (cs.takeWhile (fun c => c != '.'), some fp)

def signedDigitsVal (cs : List Char) : Option Int :=
  match cs with
  | [] => none
  | '-' :: r =>
    if r ≠ [] ∧ r.all Char.isDigit then some (-(digitsToNat r : Int)) else none
  | '+' :: r =>
    if r ≠ [] ∧ r.all Char.isDigit then some ((digitsToNat r : Int)) else none
  | _ => if cs.all Char.isDigit then some ((digitsToNat cs : Int)) else none

/-- Decimal mantissa/exponent form accepted by `ParseFloat` (underscores
already stripped): digits with at most one dot and at least one digit,
optionally followed by `e`/`E` and a signed decimal exponent. -/
def parseDecFloat (neg : Bool) (cs : List Char) : Option GoFloat :=
  match
    (match cs.dropWhile (fun c => c != 'e' && c != 'E') with
     | [] => some (0 : Int)
     | _ :: er => signedDigitsVal er) with
  | none => none
  | some ev =>
    match splitAtDot (cs.takeWhile (fun c => c != 'e' && c != 'E')) with
    | (ip, none) =>
      if ip ≠ [] ∧ ip.all Char.isDigit then
        mkFiniteFloat neg ((digitsToNat ip : ℚ) * 10 ^ ev)
      else none
    | (ip, some fp) =>
      if (ip ≠ [] ∨ fp ≠ []) ∧ ip.all Char.isDigit ∧ fp.all Char.isDigit ∧
          ¬ fp.contains '.' then
        mkFiniteFloat neg
          ((digitsToNat (ip ++ fp) : ℚ) * 10 ^ (ev - (fp.length : Int)))
      else none

def hexDigitVal (c : Char) : Nat :=
  if c.isDigit then c.toNat - 48
  else if 'a' ≤ c ∧ c ≤ 'f' then c.toNat - 97 + 10
  else c.toNat - 65 + 10

def hexDigitsToNat (cs : List Char) : Nat :=
  cs.foldl (fun a c => 16 * a + hexDigitVal c) 0

/-- Hexadecimal floats accepted by `ParseFloat`: `0x` prefix (already
consumed), hex mantissa with at most one dot and at least one digit, and a
mandatory `p`/`P` binary exponent. -/
def parseHexFloat (neg : Bool) (cs : List Char) : Option GoFloat :=
  match cs.dropWhile (fun c => c != 'p' && c != 'P') with
  | [] => none
  | _ :: er =>
    match signedDigitsVal er with
    | none => none
    | some ev =>
      match splitAtDot (cs.takeWhile (fun c => c != 'p' && c != 'P')) with
      | (ip, none) =>
        if ip ≠ [] ∧ ip.all isHexDigitCh then
          mkFiniteFloat neg ((hexDigitsToNat ip : ℚ) * 2 ^ ev)
        else none
      | (ip, some fp) =>
        if (ip ≠ [] ∨ fp ≠ []) ∧ ip.all isHexDigitCh ∧ fp.all isHexDigitCh ∧
            ¬ fp.contains '.' then
          mkFiniteFloat neg
            ((hexDigitsToNat (ip ++ fp) : ℚ) * 2 ^ (ev - 4 * (fp.length : Int)))
        else none

/-- `strconv.ParseFloat` (64-bit): sign, the case-insensitive specials
`inf`/`infinity` (signed) and `nan` (unsigned), underscore validation, then
a decimal or hexadecimal mantissa/exponent literal.  `none` covers both a
syntax error and ErrRange overflow — the two cases `deserialize` treats
alike (it only checks `err == nil`).  Values too small for a `float64` are
modelled as exact successes. -/
def goParseFloat (s : String) : Option GoFloat :=
  match s.data with
  | [] => none
  | c :: rest =>
    if c = '-' ∨ c = '+' then
      if rest.map Char.toLower = ['i', 'n', 'f'] ∨
          rest.map Char.toLower = ['i', 'n', 'f', 'i', 'n', 'i', 't', 'y'] then
        some (.inf (c = '-'))
      else if (c :: rest).contains '_' ∧ ¬ underscoreOK (c :: rest) then none
      else
        match rest.filter (fun x => x != '_') with
        | '0' :: x :: hs =>
          if x = 'x' ∨ x = 'X' then parseHexFloat (c = '-') hs
          else parseDecFloat (c = '-') (rest.filter (fun x => x != '_'))
        | _ => parseDecFloat (c = '-') (rest.filter (fun x => x != '_'))
    else if (c :: rest).map Char.toLower = ['i', 'n', 'f'] ∨
        (c :: rest).map Char.toLower = ['i', 'n', 'f', 'i', 'n', 'i', 't', 'y'] then
      some (.inf false)
    else if (c :: rest).map Char.toLower = ['n', 'a', 'n'] then some .nan
    else if (c :: rest).contains '_' ∧ ¬ underscoreOK (c :: rest) then none
    else
      match (c :: rest).filter (fun x => x != '_') with
      | '0' :: x :: hs =>
        if x = 'x' ∨ x = 'X' then parseHexFloat false hs
        else parseDecFloat false ((c :: rest).filter (fun x => x != '_'))
      | _ => parseDecFloat false ((c :: rest).filter (fun x => x != '_'))

/-! ### `encoding/json` -/

/-- A JSON document, as `json.Unmarshal` decodes into `interface and
`json.Marshal` encodes from the `default` case of `serialize`.  Numbers are
`float64` in Go, carried here as the exact rational of the literal; object
fields are kept in document order (Go decodes them into a map and `Marshal`
sorts map keys — irrelevant to every claim below). -/
inductive JVal where
  | jnull
  | jbool (b : Bool)
  | jnum (q : ℚ)
  | jstr (s : String)
  | jarr (xs : List JVal)
  | jobj (fs : List (String × JVal))

def jskipWs (cs : List Char) : List Char :=
  cs.dropWhile (fun c => c == ' ' || c == '\t' || c == '\n' || c == '\r')

def jhexVal (c : Char) : Option Nat :=
  if c.isDigit then some (c.toNat - 48)
  else if 'a' ≤ c ∧ c ≤ 'f' then some (c.toNat - 97 + 10)
  else if 'A' ≤ c ∧ c ≤ 'F' then some (c.toNat - 65 + 10)
  else none

/-- The character decoded from a `\uXXXX` escape; lone surrogates become
U+FFFD as in `encoding/json` (surrogate-pair combining is not modelled;
no claim touches it). -/
def jcharOfCode (v : Nat) : Char :=
  if 55296 ≤ v ∧ v < 57344 then Char.ofNat 65533 else Char.ofNat v

def jescChar (c : Char) : Option Char :=
  if c = '"' then some '"'
  else if c = '\\' then some '\\'
  else if c = '/' then some '/'
  else if c = 'b' then some (Char.ofNat 8)
  else if c = 'f' then some (Char.ofNat 12)
  else if c = 'n' then some (Char.ofNat 10)
  else if c = 'r' then some (Char.ofNat 13)
  else if c = 't' then some (Char.ofNat 9)
  else none

/-- Scan a JSON string body (after the opening quote): escapes as in
`encoding/json`, raw control characters rejected. -/
def jstringAux (cs : List Char) (acc : List Char) : Option (String × List Char) :=
  match cs with
  | [] => none
  | '"' :: rest => some (String.mk acc.reverse, rest)
  | '\\' :: 'u' :: a :: b :: c :: d :: rest =>
    match jhexVal a, jhexVal b, jhexVal c, jhexVal d with
    | some va, some vb, some vc, some vd =>
      jstringAux rest (jcharOfCode (((va * 16 + vb) * 16 + vc) * 16 + vd) :: acc)
    | _, _, _, _ => none
  | '\\' :: e :: rest =>
    match jescChar e with
    | some ec => jstringAux rest (ec :: acc)
    | none => none
  | '\\' :: [] => none
  | c :: rest =>
    if c.toNat < 32 then none else jstringAux rest (c :: acc)

/-- Optional `e`/`E` exponent of a JSON number. -/
def jexpParse (cs : List Char) : Option (Int × List Char) :=
  match cs with
  | 'e' :: r =>
    (match r with
     | '+' :: r2 =>
       if r2.takeWhile Char.isDigit = [] then none
       else some ((digitsToNat (r2.takeWhile Char.isDigit) : Int),
         r2.dropWhile Char.isDigit)
     | '-' :: r2 =>
       if r2.takeWhile Char.isDigit = [] then none
       else some (-(digitsToNat (r2.takeWhile Char.isDigit) : Int),
         r2.dropWhile Char.isDigit)
     | _ =>
       if r.takeWhile Char.isDigit = [] then none
       else some ((digitsToNat (r.takeWhile Char.isDigit) : Int),
         r.dropWhile Char.isDigit))
  | 'E' :: r =>
    (match r with
     | '+' :: r2 =>
       if r2.takeWhile Char.isDigit = [] then none
       else some ((digitsToNat (r2.takeWhile Char.isDigit) : Int),
         r2.dropWhile Char.isDigit)
     | '-' :: r2 =>
       if r2.takeWhile Char.isDigit = [] then none
       else some (-(digitsToNat (r2.takeWhile Char.isDigit) : Int),
         r2.dropWhile Char.isDigit)
     | _ =>
       if r.takeWhile Char.isDigit = [] then none
       else some ((digitsToNat (r.takeWhile Char.isDigit) : Int),
         r.dropWhile Char.isDigit))
  | _ => some (0, cs)

/-- Conversion of a JSON number literal to `float64`, failing on overflow as
`json.Unmarshal` into `interface` does. -/
def jnumMk (neg : Bool) (m : Nat) (e : Int) (rest : List Char) :
    Option (ℚ × List Char) :=
  if maxFloatBound ≤ (m : ℚ) * 10 ^ e then none
  else some ((if neg then -((m : ℚ) * 10 ^ e) else (m : ℚ) * 10 ^ e), rest)

/-- Fraction and exponent after the integer digits of a JSON number. -/
def jnumTail (neg : Bool) (ip : List Char) (r1 : List Char) :
    Option (ℚ × List Char) :=
  match r1 with
  | '.' :: r2 =>
    if r2.takeWhile Char.isDigit = [] then none
    else
      match jexpParse (r2.dropWhile Char.isDigit) with
      | none => none
      | some (ev, r4) =>
        jnumMk neg (digitsToNat (ip ++ r2.takeWhile Char.isDigit))
          (ev - ((r2.takeWhile Char.isDigit).length : Int)) r4
  | _ =>
    match jexpParse r1 with
    | none => none
    | some (ev, r4) => jnumMk neg (digitsToNat ip) ev r4

/-- JSON number grammar: `-? (0 | [1-9][0-9]*) frac? exp?`. -/
def jnumberBody (neg : Bool) (cs : List Char) : Option (ℚ × List Char) :=
  match cs with
  | [] => none
  | c :: _ =>
    if c.isDigit then
      if c = '0' then jnumTail neg ['0'] cs.tail
      else jnumTail neg (cs.takeWhile Char.isDigit) (cs.dropWhile Char.isDigit)
    else none

def jnumberParse (cs : List Char) : Option (ℚ × List Char) :=
  match cs with
  | '-' :: r => jnumberBody true r
  | _ => jnumberBody false cs

mutual

/-- Recursive-descent JSON value parser (fuel-indexed; the initial fuel
`length+1` always suffices since each recursion first consumes a char). -/
def jparse (fuel : Nat) (cs : List Char) : Option (JVal × List Char) :=
  match fuel with
  | 0 => none
  | fuel + 1 =>
    match jskipWs cs with
    | 'n' :: 'u' :: 'l' :: 'l' :: r => some (.jnull, r)
    | 't' :: 'r' :: 'u' :: 'e' :: r => some (.jbool true, r)
    | 'f' :: 'a' :: 'l' :: 's' :: 'e' :: r => some (.jbool false, r)
    | '"' :: r =>
      (match jstringAux r [] with
       | some (s, r2) => some (.jstr s, r2)
       | none => none)
    | '[' :: r =>
      (match jskipWs r with
       | ']' :: r2 => some (.jarr [], r2)
       | r2 =>
         match jarrItems fuel r2 with
         | some (xs, r3) => some (.jarr xs, r3)
         | none => none)
    | '{' :: r =>
      (match jskipWs r with
       | '}' :: r2 => some (.jobj [], r2)
       | r2 =>
         match jobjItems fuel r2 with
         | some (fs, r3) => some (.jobj fs, r3)
         | none => none)
    | r =>
      match jnumberParse r with
      | some (q, r2) => some (.jnum q, r2)
      | none => none

/-- Comma-separated array elements up to the closing bracket. -/
def jarrItems (fuel : Nat) (cs : List Char) : Option (List JVal × List Char) :=
  match fuel with
  | 0 => none
  | fuel + 1 =>
    match jparse fuel cs with
    | none => none
    | some (v, r) =>
      match jskipWs r with
      | ',' :: r2 =>
        (match jarrItems fuel r2 with
         | some (xs, r3) => some (v :: xs, r3)
         | none => none)
      | ']' :: r2 => some ([v], r2)
      | _ => none

/-- Comma-separated `"key": value` object members up to the closing brace. -/
def jobjItems (fuel : Nat) (cs : List Char) :
    Option (List (String × JVal) × List Char) :=
  match fuel with
  | 0 => none
  | fuel + 1 =>
    match jskipWs cs with
    | '"' :: r =>
      (match jstringAux r [] with
       | none => none
       | some (k, r2) =>
         match jskipWs r2 with
         | ':' :: r3 =>
           (match jparse fuel r3 with
            | none => none
            | some (v, r4) =>
              match jskipWs r4 with
              | ',' :: r5 =>
                (match jobjItems fuel r5 with
                 | some (fs, r6) => some ((k, v) :: fs, r6)
                 | none => none)
              | '}' :: r5 => some ([(k, v)], r5)
              | _ => none)
         | _ => none)
    | _ => none

end

/-- `json.Unmarshal(data, interface)`: one JSON value, surrounded only by
whitespace. -/
def goJsonUnmarshal (s : String) : Option JVal :=
  match jparse (s.data.length + 1) s.data with
  | some (v, rest) => if jskipWs rest = [] then some v else none
  | none => none

/-! ### `fmt` float formatting and the JSON encoder -/

def padLeftZeros (cs : List Char) (w : Nat) : List Char :=
  List.replicate (w - cs.length) '0' ++ cs

/-- Round a non-negative rational to the nearest integer, ties to even (the
rounding `strconv.FormatFloat` applies to the exact decimal expansion). -/
def roundHalfEvenNat (a : ℚ) : Nat :=
  if a - (a.floor : ℚ) < 1 / 2 then a.floor.toNat
  else if (1 : ℚ) / 2 < a - (a.floor : ℚ) then a.floor.toNat + 1
  else if a.floor.toNat % 2 = 0 then a.floor.toNat else a.floor.toNat + 1

/-- `fmt.Sprintf` with the `%f` verb: fixed six fractional digits; the
specials print as `fmt` prints them. -/
def fmtF (f : GoFloat) : String :=
  match f with
  | .nan => "NaN"
  | .inf neg => if neg then "-Inf" else "+Inf"
  | .finite q =>
    (if q < 0 then "-" else "") ++
      String.mk (natDigits (roundHalfEvenNat (|q| * 1000000) / 1000000)) ++ "." ++
      String.mk (padLeftZeros (natDigits (roundHalfEvenNat (|q| * 1000000) % 1000000)) 6)

def digitChar16 (d : Nat) : Char :=
  if d < 10 then digitChar d else Char.ofNat (97 + d - 10)

/-- `encoding/json` string escaping (with the default HTML escaping of
`json.Marshal`). -/
def jsonEscChar (c : Char) : List Char :=
  if c = '"' then ['\\', '"']
  else if c = '\\' then ['\\', '\\']
  else if c = Char.ofNat 10 then ['\\', 'n']
  else if c = Char.ofNat 13 then ['\\', 'r']
  else if c = Char.ofNat 9 then ['\\', 't']
  else if c.toNat < 32 || c = '<' || c = '>' || c = '&' then
    ['\\', 'u', '0', '0', digitChar16 (c.toNat / 16), digitChar16 (c.toNat % 16)]
  else if c.toNat = 8232 || c.toNat = 8233 then
    ['\\', 'u', '2', '0', '2', digitChar16 (c.toNat % 16)]
  else [c]

/-- Number emission of `json.Marshal` for a `float64` (Go uses the shortest
round-tripping decimal; modelled as the integer form when the value is
integral, else fixed-point — no claim evaluates it). -/
def jsonEncNum (q : ℚ) : String :=
  if q.den = 1 then intToStr q.num else fmtF (.finite q)

mutual

/-- `json.Marshal` on a decoded document. -/
def jsonEncode : JVal → String
  | .jnull => "null"
  | .jbool b => if b then "true" else "false"
  | .jnum q => jsonEncNum q
  | .jstr s => String.mk ('"' :: ((s.data.map jsonEscChar).join ++ ['"']))
  | .jarr xs => "[" ++ jsonEncodeList xs ++ "]"
  | .jobj fs => "\x7b" ++ jsonEncodeFields fs ++ "\x7d"

def jsonEncodeList : List JVal → String
  | [] => ""
  | [x] => jsonEncode x
  | x :: xs => jsonEncode x ++ "," ++ jsonEncodeList xs

def jsonEncodeFields : List (String × JVal) → String
  | [] => ""
  | [(k, v)] => jsonEncode (.jstr k) ++ ":" ++ jsonEncode v
  | (k, v) :: fs =>
    jsonEncode (.jstr k) ++ ":" ++ jsonEncode v ++ "," ++ jsonEncodeFields fs

end

/-! ### `serialize` and `deserialize` (`serde.go`) -/

/-- A Go `interface` value handed to the cache: the cases of the
`serialize` switch.  `int`, `int32` and `int64` collapse into `int` (all
three print with `%d`), `float32`/`float64` into `float` (both print with
`%f`).  `json j` stands for any other value that `json.Marshal` accepts,
represented by its JSON document; `unencodable` stands for a value
`json.Marshal` rejects (func, chan, cyclic data, ...). -/
inductive GoValue where
  | str (s : String)
  | bytes (s : String)
  | int (n : Int)
  | float (f : GoFloat)
  | bool (b : Bool)
  | json (j : JVal)
  | unencodable

/-- `serialize` from `serde.go`: the `switch value.(type)` in source order. -/
def serialize : GoValue → Except String String
  | .str s => .ok s
  | .bytes s => .ok s
  | .int n => .ok (intToStr n)
  | .float f => .ok (fmtF f)
  | .bool b => .ok (if b then "true" else "false")
  | .json j => .ok (jsonEncode j)
  | .unencodable => .error "json: unsupported type"

/-- `deserialize` from `serde.go`: try `strconv.Atoi`, then
`strconv.ParseFloat`, then `strconv.ParseBool`, then `json.Unmarshal`, else
return the text itself.  The Go function's `error` result is `nil` on every
path, hence no `Except` here. -/
def deserialize (data : String) : GoValue :=
  match goAtoi data with
  | some n => .int n
  | none =>
    match goParseFloat data with
    | some f => .float f
    | none =>
      match goParseBool data with
      | some b => .bool b
      | none =>
        match goJsonUnmarshal data with
        | some j => .json j
        | none => .str data

/-! ## Data model (`cache_item.go`, `expiration_heap.go`) -/

/-- `CacheItem`: one stored entry (`cache_item.go`). -/
structure CacheItem where
  key : String
  value : String
  expiresAt : Int

/-- `expirationHeap` (`expiration_heap.go`): the heap array and the
expiry-timestamp map. -/
structure ExpirationHeap where
  items : List String
  expiresAt : List (String × Int)

/-! ### The Go map `expiresAt` -/

def mapLookup : List (String × Int) → String → Option Int
  | [], _ => none
  | p :: m, k => if p.1 = k then some p.2 else mapLookup m k

/-- A Go map read: the zero `time.Time` for an absent key. -/
def mapRead (m : List (String × Int)) (k : String) : Int :=
  (mapLookup m k).getD 0

/-- `m[k] = t`. -/
def mapSet : List (String × Int) → String → Int → List (String × Int)
  | [], k, t => [(k, t)]
  | p :: m, k, t => if p.1 = k then (k, t) :: m else p :: mapSet m k t

/-- `delete(m, k)`. -/
def mapDel : List (String × Int) → String → List (String × Int)
  | [], _ => []
  | p :: m, k => if p.1 = k then mapDel m k else p :: mapDel m k

/-- The priority function `expirationHeap.Less` reads through:
`h.expiresAt[h.items[i]]`. -/
def priOf (h : ExpirationHeap) : String → Int :=
  fun k => mapRead h.expiresAt k

/-! ### The `go-memdb` cache table -/

def storeFirst : List CacheItem → String → Option CacheItem
  | [], _ => none
  | it :: st, k => if it.key = k then some it else storeFirst st k

/-- Replace-or-append by primary key. -/
def storePut : List CacheItem → CacheItem → List CacheItem
  | [], it => [it]
  | x :: st, it => if x.key = it.key then it :: st else x :: storePut st it

/-- `txn.Insert("cache", item)`: replace-or-append on the unique `id` index;
an empty `Key` makes `StringFieldIndex` report a missing primary index. -/
def storeInsert (st : List CacheItem) (it : CacheItem) :
    Except String (List CacheItem) :=
  if it.key = "" then .error "object missing primary index"
  else .ok (storePut st it)

/-- Remove the entry with primary key `k`. -/
def storeErase : List CacheItem → String → List CacheItem
  | [], _ => []
  | x :: st, k => if x.key = k then storeErase st k else x :: storeErase st k

/-- `txn.Delete("cache", CacheItem with Key k)`: an empty key fails on the
primary indexer, an absent object fails with `memdb.ErrNotFound`. -/
def storeDelete (st : List CacheItem) (k : String) :
    Except String (List CacheItem) :=
  if k = "" then .error "object missing primary index"
  else if (storeFirst st k).isSome then .ok (storeErase st k)
  else .error "not found"

/-! ## The cache engine (`lrucache.go`) -/

/-- The error results of the public operations.  Modelled from the spec:
the sentinel errors `ErrItemNotFound` and `ErrItemExpired` are declared in a
repository source file that is not under `src/` (the spec calls them
`NotFound` and `Expired`); the remaining constructors stand for the wrapped
`fmt.Errorf` errors of `Set` and `Delete`. -/
inductive GoErr where
  | notFound
  | expired
  | invalidTTL
  | serializeFail (msg : String)
  | storageFail (msg : String)

/-- The `LRU` struct: capacity bound plus the guarded pair of Item Store and
Expiry Index.  `opts` and `lock` have no state relevant to the claims; the
eviction hook is modelled by returning the list of `EvictCallback`
invocations each operation performs. -/
structure LRU where
  size : Int
  store : List CacheItem
  expHeap : ExpirationHeap

/-- `NewLRUWithTTL` (the background `expirationManager` goroutine is the
`removeExpiredItems` transition below). -/
def newLRUWithTTL (size : Int) : Except String LRU :=
  if size ≤ 0 then .error "cache size must be positive"
  else .ok { size := size, store := [], expHeap := { items := [], expiresAt := [] } }

/-- `removeItem`: delete from the table (on failure the transaction aborts,
the error is only logged, and — crucially — the `expiresAt` entry survives
and no hook fires), else delete the `expiresAt` entry and invoke
`EvictCallback(key, nil)`. -/
def LRU.removeItem (l : LRU) (k : String) : LRU × List (String × Option GoValue) :=
  match storeDelete l.store k with
  | .error _ => (l, [])
  | .ok st' =>
    ({ l with
        store := st',
        expHeap := { l.expHeap with expiresAt := mapDel l.expHeap.expiresAt k } },
     [(k, none)])

theorem removeItem_items (l : LRU) (k : String) :
    (l.removeItem k).1.expHeap.items = l.expHeap.items := by
  unfold LRU.removeItem
  cases storeDelete l.store k <;> rfl

theorem removeItem_size (l : LRU) (k : String) :
    (l.removeItem k).1.size = l.size := by
  unfold LRU.removeItem
  cases storeDelete l.store k <;> rfl

/-- `evictKey := heap.Pop(l.expHeap).(string); l.removeItem(evictKey)` — the
body shared by `Set`'s eviction loop and `removeExpiredItems`. -/
def LRU.popAndRemove (l : LRU) : LRU × List (String × Option GoValue) :=
  ({ l with
      expHeap := { l.expHeap with
                    items := (heapPop (priOf l.expHeap) l.expHeap.items).2 } } : LRU).removeItem
    (heapPop (priOf l.expHeap) l.expHeap.items).1

theorem popAndRemove_items (l : LRU) :
    l.popAndRemove.1.expHeap.items = (heapPop (priOf l.expHeap) l.expHeap.items).2 := by
  unfold LRU.popAndRemove
  rw [removeItem_items]

theorem popAndRemove_size (l : LRU) : l.popAndRemove.1.size = l.size := by
  unfold LRU.popAndRemove
  rw [removeItem_size]

/-- `Set`'s eviction loop `for l.expHeap.Len() > l.size`, fuel-indexed.  The
loop pops exactly one element per iteration, so fuel `items.length` makes
the fuelled loop coincide with the Go loop whenever `size ≥ 0` (always,
after `NewLRUWithTTL`). -/
def LRU.evictSteps (fuel : Nat) (l : LRU) : LRU × List (String × Option GoValue) :=
  match fuel with
  | 0 => (l, [])
  | fuel + 1 =>
    if (l.expHeap.items.length : Int) > l.size then
      ((LRU.evictSteps fuel l.popAndRemove.1).1,
       l.popAndRemove.2 ++ (LRU.evictSteps fuel l.popAndRemove.1).2)
    else (l, [])

def LRU.evictLoop (l : LRU) : LRU × List (String × Option GoValue) :=
  l.evictSteps l.expHeap.items.length

/-- The body of `removeExpiredItems`'s loop
`for l.expHeap.Len() > 0 && l.expHeap.expiresAt[l.expHeap.items[0]].Before(now)`,
fuel-indexed exactly like `evictSteps`. -/
def LRU.sweepSteps (fuel : Nat) (l : LRU) (now : Int) :
    LRU × List (String × Option GoValue) :=
  match fuel with
  | 0 => (l, [])
  | fuel + 1 =>
    if 0 < l.expHeap.items.length ∧
        mapRead l.expHeap.expiresAt (nth l.expHeap.items 0) < now then
      ((LRU.sweepSteps fuel l.popAndRemove.1 now).1,
       l.popAndRemove.2 ++ (LRU.sweepSteps fuel l.popAndRemove.1 now).2)
    else (l, [])

/-- `removeExpiredItems` (the body of the `expirationManager` ticker). -/
def LRU.removeExpiredItems (l : LRU) (now : Int) :
    LRU × List (String × Option GoValue) :=
  l.sweepSteps l.expHeap.items.length now

/-- `Set(key, value, ttl)` at time `now`. -/
def LRU.Set (l : LRU) (key : String) (value : GoValue) (ttl : Int) (now : Int) :
    Except GoErr Unit × LRU × List (String × Option GoValue) :=
  if ttl ≤ 0 then (.error .invalidTTL, l, [])
  else
    match serialize value with
    | .error e => (.error (.serializeFail e), l, [])
    | .ok data =>
      match storeInsert l.store { key := key, value := data, expiresAt := now + ttl } with
      | .error e => (.error (.storageFail e), l, [])
      | .ok st' =>
        (.ok (),
         (LRU.evictLoop
           { l with
              store := st',
              expHeap :=
                { items :=
                    heapPush
                      (fun s => mapRead (mapSet l.expHeap.expiresAt key (now + ttl)) s)
                      l.expHeap.items key,
                  expiresAt := mapSet l.expHeap.expiresAt key (now + ttl) } }).1,
         (LRU.evictLoop
           { l with
              store := st',
              expHeap :=
                { items :=
                    heapPush
                      (fun s => mapRead (mapSet l.expHeap.expiresAt key (now + ttl)) s)
                      l.expHeap.items key,
                  expiresAt := mapSet l.expHeap.expiresAt key (now + ttl) } }).2)

/-- `Get(key)` at time `now`.  `txn.First` cannot fail on this schema, so
only the not-found, expired and success paths exist; `deserialize` never
returns an error (see above), so its error branch in the Go code is dead. -/
def LRU.Get (l : LRU) (key : String) (now : Int) :
    Except GoErr GoValue × LRU × List (String × Option GoValue) :=
  match storeFirst l.store key with
  | none => (.error .notFound, l, [])
  | some item =>
    if item.expiresAt < now then
      (.error .expired, (l.removeItem key).1, (l.removeItem key).2)
    else
      (.ok (deserialize item.value), l, [])

/-- `Delete(key)`.  The preceding `txn.First` cannot fail on this schema and
its result is not inspected (the Go code checks only `err`), so the outcome
is decided by `txn.Delete`; on success only the `expiresAt` map entry is
removed — the key stays in `items`. -/
def LRU.Delete (l : LRU) (key : String) :
    Except GoErr Unit × LRU × List (String × Option GoValue) :=
  match storeDelete l.store key with
  | .error e => (.error (.storageFail e), l, [])
  | .ok st' =>
    (.ok (),
     { l with
        store := st',
        expHeap := { l.expHeap with expiresAt := mapDel l.expHeap.expiresAt key } },
     [])

/-- `Clear()`: iterates the table deleting every item (each delete succeeds
for an item the iterator just returned), then truncates `items` and
allocates a fresh `expiresAt` map. -/
def LRU.Clear (l : LRU) :
    Except GoErr Unit × LRU × List (String × Option GoValue) :=
  (.ok (), { l with store := [], expHeap := { items := [], expiresAt := [] } }, [])

/-- `Len()`: counts the table's entries. -/
def LRU.Len (l : LRU) : Nat := l.store.length

/-- A fresh engine of the given capacity (the `.ok` result of
`NewLRUWithTTL`). -/
def emptyLRU (size : Int) : LRU :=
  { size := size, store := [], expHeap := { items := [], expiresAt := [] } }

theorem newLRUWithTTL_pos (size : Int) (h : 0 < size) :
    newLRUWithTTL size = .ok (emptyLRU size) := by
  unfold newLRUWithTTL emptyLRU
  simp [not_le.mpr h]

/-! ## Lemmas about the map and store primitives -/

theorem mapLookup_set_self (m : List (String × Int)) (k : String) (t : Int) :
    mapLookup (mapSet m k t) k = some t := by
  induction m with
  | nil => simp [mapSet, mapLookup]
  | cons p m ih =>
    by_cases hp : p.1 = k
    · simp [mapSet, hp, mapLookup]
    · simp [mapSet, hp, mapLookup, ih]

theorem mapLookup_set_ne (m : List (String × Int)) (k : String) (t : Int)
    (k' : String) (h : k' ≠ k) :
    mapLookup (mapSet m k t) k' = mapLookup m k' := by
  induction m with
  | nil => simp [mapSet, mapLookup, Ne.symm h]
  | cons p m ih =>
    by_cases hp : p.1 = k
    · have hp' : p.1 ≠ k' := by rw [hp]; exact Ne.symm h
      simp [mapSet, hp, mapLookup, Ne.symm h, hp']
    · by_cases hq : p.1 = k'
      · simp [mapSet, hp, mapLookup, hq, h, Ne.symm h]
      · simp [mapSet, hp, mapLookup, hq, ih]

theorem mapLookup_del_self (m : List (String × Int)) (k : String) :
    mapLookup (mapDel m k) k = none := by
  induction m with
  | nil => simp [mapDel, mapLookup]
  | cons p m ih =>
    by_cases hp : p.1 = k
    · simp [mapDel, hp, ih]
    · simp [mapDel, hp, mapLookup, ih]

theorem mapLookup_del_ne (m : List (String × Int)) (k k' : String) (h : k' ≠ k) :
    mapLookup (mapDel m k) k' = mapLookup m k' := by
  induction m with
  | nil => simp [mapDel, mapLookup]
  | cons p m ih =>
    by_cases hp : p.1 = k
    · have hp' : p.1 ≠ k' := by rw [hp]; exact Ne.symm h
      simp [mapDel, hp, mapLookup, hp', ih, h, Ne.symm h]
    · by_cases hq : p.1 = k'
      · simp [mapDel, hp, mapLookup, hq, h, Ne.symm h]
      · simp [mapDel, hp, mapLookup, hq, ih]

theorem mem_keys_mapSet (m : List (String × Int)) (k : String) (t : Int)
    (a : String) (h : a ∈ (mapSet m k t).map Prod.fst) :
    a ∈ m.map Prod.fst ∨ a = k := by
  induction m with
  | nil =>
    rw [show mapSet [] k t = [(k, t)] from rfl, List.map_cons] at h
    rcases List.mem_cons.mp h with h | h
    · exact Or.inr h
    · cases h
  | cons p m ih =>
    by_cases hp : p.1 = k
    · rw [show mapSet (p :: m) k t = (k, t) :: m from by simp [mapSet, hp],
        List.map_cons] at h
      rcases List.mem_cons.mp h with h | h
      · exact Or.inr h
      · exact Or.inl (by rw [List.map_cons]; exact List.mem_cons_of_mem _ h)
    · rw [show mapSet (p :: m) k t = p :: mapSet m k t from by simp [mapSet, hp],
        List.map_cons] at h
      rcases List.mem_cons.mp h with h | h
      · exact Or.inl (by rw [List.map_cons, h]; exact List.mem_cons_self _ _)
      · rcases ih h with h2 | h2
        · exact Or.inl (by rw [List.map_cons]; exact List.mem_cons_of_mem _ h2)
        · exact Or.inr h2

theorem mem_keys_mapDel (m : List (String × Int)) (k : String)
    (a : String) (h : a ∈ (mapDel m k).map Prod.fst) : a ∈ m.map Prod.fst := by
  induction m with
  | nil => exact absurd h (by simp [mapDel])
  | cons p m ih =>
    by_cases hp : p.1 = k
    · rw [show mapDel (p :: m) k = mapDel m k from by simp [mapDel, hp]] at h
      rw [List.map_cons]
      exact List.mem_cons_of_mem _ (ih h)
    · rw [show mapDel (p :: m) k = p :: mapDel m k from by simp [mapDel, hp],
        List.map_cons] at h
      rw [List.map_cons]
      rcases List.mem_cons.mp h with h | h
      · rw [h]; exact List.mem_cons_self _ _
      · exact List.mem_cons_of_mem _ (ih h)

theorem mapSet_nodup (m : List (String × Int)) (k : String) (t : Int)
    (h : (m.map Prod.fst).Nodup) : ((mapSet m k t).map Prod.fst).Nodup := by
  induction m with
  | nil => simp [mapSet]
  | cons p m ih =>
    rw [List.map_cons] at h
    obtain ⟨h1, h2⟩ := List.nodup_cons.mp h
    by_cases hp : p.1 = k
    · have he : mapSet (p :: m) k t = (k, t) :: m := by simp [mapSet, hp]
      rw [he, List.map_cons]
      exact List.nodup_cons.mpr ⟨by rw [← hp]; exact h1, h2⟩
    · have he : mapSet (p :: m) k t = p :: mapSet m k t := by simp [mapSet, hp]
      rw [he, List.map_cons]
      refine List.nodup_cons.mpr ⟨?_, ih h2⟩
      intro hmem
      rcases mem_keys_mapSet m k t p.1 hmem with hc | hc
      · exact h1 hc
      · exact hp hc

theorem mapDel_nodup (m : List (String × Int)) (k : String)
    (h : (m.map Prod.fst).Nodup) : ((mapDel m k).map Prod.fst).Nodup := by
  induction m with
  | nil => simp [mapDel]
  | cons p m ih =>
    rw [List.map_cons] at h
    obtain ⟨h1, h2⟩ := List.nodup_cons.mp h
    by_cases hp : p.1 = k
    · have he : mapDel (p :: m) k = mapDel m k := by simp [mapDel, hp]
      rw [he]
      exact ih h2
    · have he : mapDel (p :: m) k = p :: mapDel m k := by simp [mapDel, hp]
      rw [he, List.map_cons]
      exact List.nodup_cons.mpr
        ⟨fun hmem => h1 (mem_keys_mapDel m k p.1 hmem), ih h2⟩

theorem storeFirst_put_self (st : List CacheItem) (it : CacheItem) :
    storeFirst (storePut st it) it.key = some it := by
  induction st with
  | nil => simp [storePut, storeFirst]
  | cons x st ih =>
    by_cases hx : x.key = it.key
    · simp [storePut, hx, storeFirst]
    · simp [storePut, hx, storeFirst, ih]

theorem storeFirst_put_ne (st : List CacheItem) (it : CacheItem) (k : String)
    (h : k ≠ it.key) : storeFirst (storePut st it) k = storeFirst st k := by
  induction st with
  | nil => simp [storePut, storeFirst, Ne.symm h]
  | cons x st ih =>
    by_cases hx : x.key = it.key
    · have hx' : x.key ≠ k := by rw [hx]; exact Ne.symm h
      simp [storePut, hx, storeFirst, Ne.symm h, hx']
    · by_cases hk : x.key = k
      · simp [storePut, hx, storeFirst, hk, h, Ne.symm h]
      · simp [storePut, hx, storeFirst, hk, ih]

theorem storeFirst_erase_self (st : List CacheItem) (k : String) :
    storeFirst (storeErase st k) k = none := by
  induction st with
  | nil => simp [storeErase, storeFirst]
  | cons x st ih =>
    by_cases hx : x.key = k
    · simp [storeErase, hx, ih]
    · simp [storeErase, hx, storeFirst, ih]

theorem storeFirst_erase_ne (st : List CacheItem) (k k' : String) (h : k' ≠ k) :
    storeFirst (storeErase st k) k' = storeFirst st k' := by
  induction st with
  | nil => simp [storeErase, storeFirst]
  | cons x st ih =>
    by_cases hx : x.key = k
    · have hx' : x.key ≠ k' := by rw [hx]; exact Ne.symm h
      simp [storeErase, hx, storeFirst, hx', ih, h, Ne.symm h]
    · by_cases hk : x.key = k'
      · simp [storeErase, hx, storeFirst, hk, h, Ne.symm h]
      · simp [storeErase, hx, storeFirst, hk, ih]

theorem mem_storeErase (st : List CacheItem) (k : String) (it : CacheItem)
    (h : it ∈ storeErase st k) : it ∈ st ∧ it.key ≠ k := by
  induction st with
  | nil => exact absurd h (by simp [storeErase])
  | cons x st ih =>
    by_cases hx : x.key = k
    · rw [show storeErase (x :: st) k = storeErase st k from by
        simp [storeErase, hx]] at h
      exact ⟨List.mem_cons_of_mem _ (ih h).1, (ih h).2⟩
    · rw [show storeErase (x :: st) k = x :: storeErase st k from by
        simp [storeErase, hx]] at h
      rcases List.mem_cons.mp h with h | h
      · exact ⟨by rw [h]; exact List.mem_cons_self _ _, by rw [h]; exact hx⟩
      · exact ⟨List.mem_cons_of_mem _ (ih h).1, (ih h).2⟩

theorem mem_keys_storePut (st : List CacheItem) (it : CacheItem) (a : String)
    (h : a ∈ (storePut st it).map (fun x => x.key)) :
    a ∈ st.map (fun x => x.key) ∨ a = it.key := by
  induction st with
  | nil =>
    rw [show storePut [] it = [it] from rfl, List.map_cons] at h
    rcases List.mem_cons.mp h with h | h
    · exact Or.inr h
    · cases h
  | cons x st ih =>
    by_cases hx : x.key = it.key
    · rw [show storePut (x :: st) it = it :: st from by simp [storePut, hx],
        List.map_cons] at h
      rcases List.mem_cons.mp h with h | h
      · exact Or.inr h
      · exact Or.inl (by rw [List.map_cons]; exact List.mem_cons_of_mem _ h)
    · rw [show storePut (x :: st) it = x :: storePut st it from by
        simp [storePut, hx], List.map_cons] at h
      rcases List.mem_cons.mp h with h | h
      · exact Or.inl (by rw [List.map_cons, h]; exact List.mem_cons_self _ _)
      · rcases ih h with h2 | h2
        · exact Or.inl (by rw [List.map_cons]; exact List.mem_cons_of_mem _ h2)
        · exact Or.inr h2

theorem mem_storePut (st : List CacheItem) (it it' : CacheItem)
    (hnd : (st.map (fun x => x.key)).Nodup) (h : it' ∈ storePut st it) :
    it' = it ∨ (it' ∈ st ∧ it'.key ≠ it.key) := by
  induction st with
  | nil =>
    rcases List.mem_cons.mp (show it' ∈ [it] from h) with h | h
    · exact Or.inl h
    · cases h
  | cons x st ih =>
    rw [List.map_cons] at hnd
    obtain ⟨hnd1, hnd2⟩ := List.nodup_cons.mp hnd
    by_cases hx : x.key = it.key
    · rw [show storePut (x :: st) it = it :: st from by simp [storePut, hx]] at h
      rcases List.mem_cons.mp h with h | h
      · exact Or.inl h
      · refine Or.inr ⟨List.mem_cons_of_mem _ h, fun hkey => ?_⟩
        exact hnd1 (by rw [hx, ← hkey]; exact List.mem_map_of_mem _ h)
    · rw [show storePut (x :: st) it = x :: storePut st it from by
        simp [storePut, hx]] at h
      rcases List.mem_cons.mp h with h | h
      · exact Or.inr ⟨by rw [h]; exact List.mem_cons_self _ _, by rw [h]; exact hx⟩
      · rcases ih hnd2 h with h2 | h2
        · exact Or.inl h2
        · exact Or.inr ⟨List.mem_cons_of_mem _ h2.1, h2.2⟩

theorem storePut_keys_nodup (st : List CacheItem) (it : CacheItem)
    (h : (st.map (fun x => x.key)).Nodup) :
    ((storePut st it).map (fun x => x.key)).Nodup := by
  induction st with
  | nil => simp [storePut]
  | cons x st ih =>
    rw [List.map_cons] at h
    obtain ⟨h1, h2⟩ := List.nodup_cons.mp h
    by_cases hx : x.key = it.key
    · rw [show storePut (x :: st) it = it :: st from by simp [storePut, hx],
        List.map_cons]
      exact List.nodup_cons.mpr ⟨by rw [← hx]; exact h1, h2⟩
    · rw [show storePut (x :: st) it = x :: storePut st it from by
        simp [storePut, hx], List.map_cons]
      refine List.nodup_cons.mpr ⟨?_, ih h2⟩
      intro hmem
      rcases mem_keys_storePut st it x.key hmem with hc | hc
      · exact h1 hc
      · exact hx hc

theorem storeErase_keys_nodup (st : List CacheItem) (k : String)
    (h : (st.map (fun x => x.key)).Nodup) :
    ((storeErase st k).map (fun x => x.key)).Nodup := by
  induction st with
  | nil => simp [storeErase]
  | cons x st ih =>
    rw [List.map_cons] at h
    obtain ⟨h1, h2⟩ := List.nodup_cons.mp h
    by_cases hx : x.key = k
    · rw [show storeErase (x :: st) k = storeErase st k from by
        simp [storeErase, hx]]
      exact ih h2
    · rw [show storeErase (x :: st) k = x :: storeErase st k from by
        simp [storeErase, hx], List.map_cons]
      refine List.nodup_cons.mpr ⟨?_, ih h2⟩
      intro hmem
      obtain ⟨y, hy, hyk⟩ := List.mem_map.mp hmem
      exact h1 (hyk ▸ List.mem_map_of_mem _ (mem_storeErase st k y hy).1)

theorem storeFirst_isSome_of_mem (st : List CacheItem) (it : CacheItem)
    (h : it ∈ st) : (storeFirst st it.key).isSome := by
  induction st with
  | nil => cases h
  | cons x st ih =>
    by_cases hx : x.key = it.key
    · simp [storeFirst, hx]
    · rcases List.mem_cons.mp h with h | h
      · exact absurd (by rw [h]) hx
      · simp [storeFirst, hx, ih h]

/-! ## The Item Store / Expiry Index correspondence (claim C1) -/

/-- The state invariant the engine maintains: every stored item has its exact
timestamp in the `expiresAt` map and (at least) one occurrence in the heap
array, keys are non-empty, and both the table and the map are duplicate-free.
(The heap array `items` is *not* duplicate-free: see the C1 counterexample.) -/
def Inv (l : LRU) : Prop :=
  (∀ it ∈ l.store,
    mapLookup l.expHeap.expiresAt it.key = some it.expiresAt ∧
    it.key ∈ l.expHeap.items ∧ it.key ≠ "") ∧
  (l.store.map (fun x => x.key)).Nodup ∧
  (l.expHeap.expiresAt.map Prod.fst).Nodup

theorem storeDelete_ok (st : List CacheItem) (k : String) (st' : List CacheItem)
    (h : storeDelete st k = .ok st') : k ≠ "" ∧ st' = storeErase st k := by
  unfold storeDelete at h
  by_cases h1 : k = ""
  · simp [h1] at h
  · by_cases h2 : (storeFirst st k).isSome
    · simp [h1, h2] at h
      exact ⟨h1, h.symm⟩
    · simp [h1, h2] at h

theorem storeDelete_error (st : List CacheItem) (k : String) (e : String)
    (h : storeDelete st k = .error e) : k = "" ∨ storeFirst st k = none := by
  unfold storeDelete at h
  by_cases h1 : k = ""
  · exact Or.inl h1
  · by_cases h2 : (storeFirst st k).isSome
    · simp [h1, h2] at h
    · exact Or.inr (Option.not_isSome_iff_eq_none.mp h2)

theorem inv_removeItem (l : LRU) (k : String) (h : Inv l) :
    Inv (l.removeItem k).1 := by
  obtain ⟨h1, h2, h3⟩ := h
  unfold LRU.removeItem
  cases hsd : storeDelete l.store k with
  | error e => exact ⟨h1, h2, h3⟩
  | ok st' =>
    obtain ⟨hk, rfl⟩ := storeDelete_ok l.store k st' hsd
    refine ⟨?_, storeErase_keys_nodup _ _ h2, mapDel_nodup _ _ h3⟩
    intro it hit
    obtain ⟨hmem, hne⟩ := mem_storeErase _ _ _ hit
    obtain ⟨hl, hm, hne2⟩ := h1 it hmem
    exact ⟨by rw [mapLookup_del_ne _ _ _ hne]; exact hl, hm, hne2⟩

theorem inv_popAndRemove (l : LRU) (h : Inv l) : Inv l.popAndRemove.1 := by
  obtain ⟨h1, h2, h3⟩ := h
  have hmemrest : ∀ it ∈ l.store,
      it.key ≠ (heapPop (priOf l.expHeap) l.expHeap.items).1 →
      it.key ∈ (heapPop (priOf l.expHeap) l.expHeap.items).2 := by
    intro it hit hne
    obtain ⟨_, hm, _⟩ := h1 it hit
    have hnil : l.expHeap.items ≠ [] := by
      intro hcon; rw [hcon] at hm; cases hm
    have hperm := heapPop_perm (priOf l.expHeap) l.expHeap.items hnil
    have : it.key ∈ nth l.expHeap.items 0 ::
        (heapPop (priOf l.expHeap) l.expHeap.items).2 := hperm.mem_iff.mpr hm
    rcases List.mem_cons.mp this with hc | hc
    · rw [heapPop_fst _ _ hnil] at hne
      exact absurd hc hne
    · exact hc
  unfold LRU.popAndRemove LRU.removeItem
  cases hsd : storeDelete l.store (heapPop (priOf l.expHeap) l.expHeap.items).1 with
  | error e =>
    refine ⟨?_, h2, h3⟩
    intro it hit
    obtain ⟨hl, _, hne2⟩ := h1 it hit
    have hne : it.key ≠ (heapPop (priOf l.expHeap) l.expHeap.items).1 := by
      rcases storeDelete_error _ _ _ hsd with hc | hc
      · rw [hc]; exact hne2
      · intro hcon
        have := storeFirst_isSome_of_mem l.store it hit
        rw [hcon, hc] at this
        cases this
    exact ⟨hl, hmemrest it hit hne, hne2⟩
  | ok st' =>
    obtain ⟨hk, rfl⟩ := storeDelete_ok _ _ _ hsd
    refine ⟨?_, storeErase_keys_nodup _ _ h2, mapDel_nodup _ _ h3⟩
    intro it hit
    obtain ⟨hmem, hne⟩ := mem_storeErase _ _ _ hit
    obtain ⟨hl, _, hne2⟩ := h1 it hmem
    exact ⟨by rw [mapLookup_del_ne _ _ _ hne]; exact hl,
      hmemrest it hmem hne, hne2⟩

theorem inv_evictSteps (fuel : Nat) (l : LRU) (h : Inv l) :
    Inv (LRU.evictSteps fuel l).1 := by
  induction fuel generalizing l with
  | zero => exact h
  | succ fuel ih =>
    rw [LRU.evictSteps]
    split
    · exact ih _ (inv_popAndRemove l h)
    · exact h

theorem inv_sweepSteps (fuel : Nat) (l : LRU) (now : Int) (h : Inv l) :
    Inv (LRU.sweepSteps fuel l now).1 := by
  induction fuel generalizing l with
  | zero => exact h
  | succ fuel ih =>
    rw [LRU.sweepSteps]
    split
    · exact ih _ (inv_popAndRemove l h)
    · exact h

theorem storeInsert_ok (st : List CacheItem) (it : CacheItem)
    (st' : List CacheItem) (h : storeInsert st it = .ok st') :
    it.key ≠ "" ∧ st' = storePut st it := by
  unfold storeInsert at h
  by_cases h1 : it.key = ""
  · simp [h1] at h
  · simp [h1] at h
    exact ⟨h1, h.symm⟩

theorem inv_Set (l : LRU) (k : String) (v : GoValue) (ttl now : Int)
    (h : Inv l) : Inv (l.Set k v ttl now).2.1 := by
  unfold LRU.Set
  split
  · exact h
  · cases hser : serialize v with
    | error e => exact h
    | ok data =>
      dsimp only
      cases hins : storeInsert l.store { key := k, value := data, expiresAt := now + ttl } with
      | error e => exact h
      | ok st' =>
        dsimp only
        obtain ⟨hk, rfl⟩ := storeInsert_ok _ _ _ hins
        rw [LRU.evictLoop]
        apply inv_evictSteps
        obtain ⟨h1, h2, h3⟩ := h
        refine ⟨?_, storePut_keys_nodup _ _ h2, mapSet_nodup _ _ _ h3⟩
        intro it hit
        have hpushmem : ∀ a, a ∈ l.expHeap.items ++ [k] →
            a ∈ heapPush (fun s => mapRead (mapSet l.expHeap.expiresAt k (now + ttl)) s)
              l.expHeap.items k := by
          intro a ha
          exact (heapPush_perm _ _ _).mem_iff.mpr ha
        rcases mem_storePut _ _ _ h2 hit with rfl | ⟨hmem, hne⟩
        · refine ⟨mapLookup_set_self _ _ _, ?_, hk⟩
          exact hpushmem _ (List.mem_append_right _ (List.mem_singleton.mpr rfl))
        · obtain ⟨hl, hm, hne2⟩ := h1 it hmem
          exact ⟨by rw [mapLookup_set_ne _ _ _ _ hne]; exact hl,
            hpushmem _ (List.mem_append_left _ hm), hne2⟩

theorem inv_Get (l : LRU) (k : String) (now : Int) (h : Inv l) :
    Inv (l.Get k now).2.1 := by
  unfold LRU.Get
  cases hsf : storeFirst l.store k with
  | none => exact h
  | some item =>
    dsimp only
    split
    · exact inv_removeItem l k h
    · exact h

theorem inv_Delete (l : LRU) (k : String) (h : Inv l) :
    Inv (l.Delete k).2.1 := by
  obtain ⟨h1, h2, h3⟩ := h
  unfold LRU.Delete
  cases hsd : storeDelete l.store k with
  | error e => exact ⟨h1, h2, h3⟩
  | ok st' =>
    obtain ⟨hk, rfl⟩ := storeDelete_ok l.store k st' hsd
    refine ⟨?_, storeErase_keys_nodup _ _ h2, mapDel_nodup _ _ h3⟩
    intro it hit
    obtain ⟨hmem, hne⟩ := mem_storeErase _ _ _ hit
    obtain ⟨hl, hm, hne2⟩ := h1 it hmem
    exact ⟨by rw [mapLookup_del_ne _ _ _ hne]; exact hl, hm, hne2⟩

theorem inv_Clear (l : LRU) : Inv (l.Clear).2.1 := by
  exact ⟨fun it hit => absurd hit (by simp [LRU.Clear]), by simp [LRU.Clear],
    by simp [LRU.Clear]⟩

/-- The engine states reachable through the public interface (plus the
background sweep) from a fresh `NewLRUWithTTL` cache. -/
inductive Reach : LRU → Prop where
  | init (size : Int) (l : LRU) : newLRUWithTTL size = .ok l → Reach l
  | set (l : LRU) (k : String) (v : GoValue) (ttl now : Int) :
      Reach l → Reach (l.Set k v ttl now).2.1
  | get (l : LRU) (k : String) (now : Int) : Reach l → Reach (l.Get k now).2.1
  | del (l : LRU) (k : String) : Reach l → Reach (l.Delete k).2.1
  | clear (l : LRU) : Reach l → Reach l.Clear.2.1
  | sweep (l : LRU) (now : Int) : Reach l → Reach (l.removeExpiredItems now).1

theorem reach_inv (l : LRU) (h : Reach l) : Inv l := by
  induction h with
  | init size l hnew =>
    unfold newLRUWithTTL at hnew
    by_cases hs : size ≤ 0
    · simp [hs] at hnew
    · simp [hs] at hnew
      exact ⟨fun it hit => absurd hit (by rw [← hnew]; simp),
        by rw [← hnew]; simp, by rw [← hnew]; simp⟩
  | set l k v ttl now _ ih => exact inv_Set l k v ttl now ih
  | get l k now _ ih => exact inv_Get l k now ih
  | del l k _ ih => exact inv_Delete l k ih
  | clear l _ ih => exact inv_Clear l
  | sweep l now _ ih => exact inv_sweepSteps _ l now ih

/-- Occurrence count of key `k` in the `expiresAt` map. -/
def mapCount (m : List (String × Int)) (k : String) : Nat :=
  m.countP (fun p => p.1 == k)

theorem mapCount_eq_one (m : List (String × Int)) (k : String) (t : Int)
    (hnd : (m.map Prod.fst).Nodup) (hl : mapLookup m k = some t) :
    mapCount m k = 1 := by
  induction m with
  | nil => cases hl
  | cons p m ih =>
    rw [List.map_cons] at hnd
    obtain ⟨h1, h2⟩ := List.nodup_cons.mp hnd
    by_cases hp : p.1 = k
    · have hz : mapCount m k = 0 := by
        rw [mapCount, List.countP_eq_zero]
        intro q hq
        simp only [beq_iff_eq]
        intro hcon
        exact h1 (by rw [hp, ← hcon]; exact List.mem_map_of_mem _ hq)
      rw [mapCount, List.countP_cons]
      simp only [beq_iff_eq, hp, if_true]
      rw [← mapCount, hz]
    · rw [mapLookup] at hl
      rw [if_neg hp] at hl
      rw [mapCount, List.countP_cons]
      simp only [beq_iff_eq, hp, if_false]
      rw [← mapCount, ih h2 hl]

/-! ## Hook-event helpers -/

theorem removeItem_snd_none (l : LRU) (k : String) :
    ∀ ev ∈ (l.removeItem k).2, ev.2 = none := by
  unfold LRU.removeItem
  cases storeDelete l.store k with
  | error e => intro ev hev; cases hev
  | ok st' =>
    intro ev hev
    rcases List.mem_cons.mp hev with h | h
    · rw [h]
    · cases h

theorem popAndRemove_snd_none (l : LRU) :
    ∀ ev ∈ l.popAndRemove.2, ev.2 = none := by
  unfold LRU.popAndRemove
  exact removeItem_snd_none _ _

theorem evictSteps_snd_none (fuel : Nat) (l : LRU) :
    ∀ ev ∈ (LRU.evictSteps fuel l).2, ev.2 = none := by
  induction fuel generalizing l with
  | zero => intro ev hev; cases hev
  | succ fuel ih =>
    rw [LRU.evictSteps]
    split
    · intro ev hev
      rcases List.mem_append.mp hev with h | h
      · exact popAndRemove_snd_none l ev h
      · exact ih _ ev h
    · intro ev hev; cases hev

theorem sweepSteps_snd_none (fuel : Nat) (l : LRU) (now : Int) :
    ∀ ev ∈ (LRU.sweepSteps fuel l now).2, ev.2 = none := by
  induction fuel generalizing l with
  | zero => intro ev hev; cases hev
  | succ fuel ih =>
    rw [LRU.sweepSteps]
    split
    · intro ev hev
      rcases List.mem_append.mp hev with h | h
      · exact popAndRemove_snd_none l ev h
      · exact ih _ ev h
    · intro ev hev; cases hev

theorem set_snd_none (l : LRU) (k : String) (v : GoValue) (ttl now : Int) :
    ∀ ev ∈ (l.Set k v ttl now).2.2, ev.2 = none := by
  unfold LRU.Set
  split
  · intro ev hev; cases hev
  · cases serialize v with
    | error e => intro ev hev; cases hev
    | ok data =>
      dsimp only
      cases storeInsert l.store { key := k, value := data, expiresAt := now + ttl } with
      | error e => intro ev hev; cases hev
      | ok st' =>
        dsimp only
        exact evictSteps_snd_none _ _

theorem get_snd_none (l : LRU) (k : String) (now : Int) :
    ∀ ev ∈ (l.Get k now).2.2, ev.2 = none := by
  unfold LRU.Get
  cases storeFirst l.store k with
  | none => intro ev hev; cases hev
  | some item =>
    dsimp only
    split
    · exact removeItem_snd_none _ _
    · intro ev hev; cases hev

theorem snd_none_map (evs : List (String × Option GoValue))
    (h : ∀ ev ∈ evs, ev.2 = none) :
    evs.map Prod.snd = List.replicate evs.length none := by
  induction evs with
  | nil => rfl
  | cons e evs ih =>
    rw [List.map_cons, List.length_cons, List.replicate_succ,
      h e (List.mem_cons_self _ _), ih (fun ev hev => h ev (List.mem_cons_of_mem _ hev))]

/-- If the heap does not exceed capacity, the eviction loop is a no-op. -/
theorem evictSteps_noop (fuel : Nat) (l : LRU)
    (h : ¬ ((l.expHeap.items.length : Int) > l.size)) :
    LRU.evictSteps fuel l = (l, []) := by
  cases fuel with
  | zero => rfl
  | succ fuel => rw [LRU.evictSteps, if_neg h]

/-! ## The claims -/

/-- C1 (counterexample): the claimed one-to-one Store/Index correspondence
fails after `Set` is called twice with the same key: the key is present in
the Item Store, but `expirationHeap.items` then holds two entries for it
(`heap.Push` appends unconditionally and `Set` never removes the stale
entry). -/
theorem c1_counterexample :
    (storeFirst
        (((emptyLRU 2).Set "k" (GoValue.str "a") 10 0).2.1.Set "k"
          (GoValue.str "b") 10 0).2.1.store "k").isSome = true ∧
    ((((emptyLRU 2).Set "k" (GoValue.str "a") 10 0).2.1.Set "k"
        (GoValue.str "b") 10 0).2.1.expHeap.items.count "k") = 2 := by
  exact ⟨rfl, rfl⟩

/-- C1 (amended): in every reachable state, every key present in the Item
Store has exactly one entry in the `expirationHeap.expiresAt` map carrying
the same expiration timestamp, and at least one occurrence in
`expirationHeap.items`; uniqueness in `items` fails on re-`Set` (see the
counterexample), and `Delete` keeps the correspondence for the remaining
keys while leaving a stale occurrence of the deleted key in `items`. -/
theorem c1_amended_store_index_correspondence (l : LRU) (h : Reach l) :
    ∀ it ∈ l.store,
      mapLookup l.expHeap.expiresAt it.key = some it.expiresAt ∧
      mapCount l.expHeap.expiresAt it.key = 1 ∧
      it.key ∈ l.expHeap.items := by
  obtain ⟨h1, h2, h3⟩ := reach_inv l h
  intro it hit
  obtain ⟨hl, hm, hk⟩ := h1 it hit
  exact ⟨hl, mapCount_eq_one _ _ _ h3 hl, hm⟩

/-- C1 witness: the invariant instantiated in the state reached by one `Set`
on a fresh cache. -/
theorem c1_amended_store_index_correspondence_witness :
    mapLookup ((emptyLRU 2).Set "a" (GoValue.int 1) 5 0).2.1.expHeap.expiresAt "a" =
      some 5 ∧
    mapCount ((emptyLRU 2).Set "a" (GoValue.int 1) 5 0).2.1.expHeap.expiresAt "a" = 1 ∧
    "a" ∈ ((emptyLRU 2).Set "a" (GoValue.int 1) 5 0).2.1.expHeap.items :=
  c1_amended_store_index_correspondence _
    (Reach.set _ "a" (GoValue.int 1) 5 0 (Reach.init 2 _ (by rfl)))
    { key := "a", value := "1", expiresAt := 5 } (List.mem_singleton.mpr rfl)

/-- C3: a `Get` on a present key whose expiration timestamp lies strictly
before the current time fails with the `Expired` error, eagerly removes the
item (invoking the hook with a nil value), and a subsequent `Get` of the
same key fails with `NotFound`.  (`k ≠ ""` holds for every stored key, by
`reach_inv`.) -/
theorem c3_expired_get (l : LRU) (k : String) (item : CacheItem) (now : Int)
    (hk : k ≠ "") (hfind : storeFirst l.store k = some item)
    (hexp : item.expiresAt < now) :
    (l.Get k now).1 = .error .expired ∧
    (l.Get k now).2.2 = [(k, none)] ∧
    storeFirst (l.Get k now).2.1.store k = none ∧
    (∀ now2, ((l.Get k now).2.1.Get k now2).1 = .error .notFound) := by
  have hsome : (storeFirst l.store k).isSome := by rw [hfind]; rfl
  have hrm : l.removeItem k =
      ({ l with
          store := storeErase l.store k,
          expHeap := { l.expHeap with
            expiresAt := mapDel l.expHeap.expiresAt k } }, [(k, none)]) := by
    unfold LRU.removeItem storeDelete
    rw [if_neg hk, if_pos hsome]
  have hget : l.Get k now = (.error .expired, (l.removeItem k).1, (l.removeItem k).2) := by
    unfold LRU.Get
    rw [hfind]
    dsimp only
    rw [if_pos hexp]
  refine ⟨by rw [hget], by rw [hget, hrm], ?_, ?_⟩
  · rw [hget, hrm]
    exact storeFirst_erase_self l.store k
  · intro now2
    rw [hget, hrm]
    unfold LRU.Get
    rw [show storeFirst (storeErase l.store k) k = none from
      storeFirst_erase_self l.store k]

/-- C3 witness: key `x` set at time 0 with ttl 5, read at time 6. -/
theorem c3_expired_get_witness :
    ((((emptyLRU 5).Set "x" (GoValue.str "v") 5 0).2.1.Get "x" 6).1 =
      .error .expired) ∧
    (((((emptyLRU 5).Set "x" (GoValue.str "v") 5 0).2.1.Get "x" 6).2.1.Get "x" 7).1 =
      .error .notFound) := by
  have h := c3_expired_get ((emptyLRU 5).Set "x" (GoValue.str "v") 5 0).2.1 "x"
    { key := "x", value := "v", expiresAt := 5 } 6 (by decide) (by rfl) (by decide)
  exact ⟨h.1, h.2.2.2 7⟩

/-- C5 (counterexample): `Delete` of an absent key does not return success —
`txn.Delete` fails with memdb's not-found error, which `Delete` returns. -/
theorem c5_counterexample :
    ((emptyLRU 3).Delete "k").1 = .error (.storageFail "not found") := rfl

/-- C5 (amended): `Delete` of a present key succeeds, removes the item from
the Item Store and the key's entry from the Expiry Index's `expiresAt` map,
but leaves `expirationHeap.items` untouched (the stale array entry survives
until popped); `Delete` of an absent key returns the wrapped memdb
not-found error and changes nothing. -/
theorem c5_amended_delete :
    (∀ (l : LRU) (k : String) (item : CacheItem), k ≠ "" →
      storeFirst l.store k = some item →
      l.Delete k = (.ok (),
        { l with
            store := storeErase l.store k,
            expHeap := { l.expHeap with
              expiresAt := mapDel l.expHeap.expiresAt k } }, []) ∧
      storeFirst (l.Delete k).2.1.store k = none ∧
      mapLookup (l.Delete k).2.1.expHeap.expiresAt k = none ∧
      (l.Delete k).2.1.expHeap.items = l.expHeap.items) ∧
    (∀ (l : LRU) (k : String), k ≠ "" → storeFirst l.store k = none →
      (l.Delete k).1 = .error (.storageFail "not found") ∧
      (l.Delete k).2.1 = l) := by
  constructor
  · intro l k item hk hfind
    have hsome : (storeFirst l.store k).isSome := by rw [hfind]; rfl
    have hdel : l.Delete k = (.ok (),
        { l with
            store := storeErase l.store k,
            expHeap := { l.expHeap with
              expiresAt := mapDel l.expHeap.expiresAt k } }, []) := by
      unfold LRU.Delete storeDelete
      rw [if_neg hk, if_pos hsome]
    refine ⟨hdel, ?_, ?_, ?_⟩
    · rw [hdel]; exact storeFirst_erase_self l.store k
    · rw [hdel]; exact mapLookup_del_self l.expHeap.expiresAt k
    · rw [hdel]
  · intro l k hk hnone
    have hdel : l.Delete k = (.error (.storageFail "not found"), l, []) := by
      unfold LRU.Delete storeDelete
      rw [if_neg hk, hnone]
      rfl
    exact ⟨by rw [hdel], by rw [hdel]⟩

/-- C5 witness: both branches instantiated on a one-item cache. -/
theorem c5_amended_delete_witness :
    ((((emptyLRU 3).Set "a" (GoValue.int 7) 5 0).2.1.Delete "a").1 = .ok ()) ∧
    (((emptyLRU 3).Delete "zz").1 = .error (.storageFail "not found")) := by
  have h1 := (c5_amended_delete.1 ((emptyLRU 3).Set "a" (GoValue.int 7) 5 0).2.1 "a"
    { key := "a", value := "7", expiresAt := 5 } (by decide) (by rfl)).1
  have h2 := (c5_amended_delete.2 (emptyLRU 3) "zz" (by decide) (by rfl)).1
  exact ⟨by rw [h1], h2⟩

/-- C7: `deserialize` applies exactly the claimed precedence — integer
parse, then float parse, then bool parse, then JSON parse, else the raw
text; in particular the bytes `"42"` always decode as the integer `42`,
never as a string. -/
theorem c7_decode_precedence :
    (∀ s n, goAtoi s = some n → deserialize s = .int n) ∧
    (∀ s f, goAtoi s = none → goParseFloat s = some f → deserialize s = .float f) ∧
    (∀ s b, goAtoi s = none → goParseFloat s = none → goParseBool s = some b →
      deserialize s = .bool b) ∧
    (∀ s j, goAtoi s = none → goParseFloat s = none → goParseBool s = none →
      goJsonUnmarshal s = some j → deserialize s = .json j) ∧
    (∀ s, goAtoi s = none → goParseFloat s = none → goParseBool s = none →
      goJsonUnmarshal s = none → deserialize s = .str s) ∧
    deserialize "42" = .int 42 ∧
    (∀ s, deserialize "42" ≠ .str s) := by
  refine ⟨?_, ?_, ?_, ?_, ?_, rfl, ?_⟩
  · intro s n h; unfold deserialize; rw [h]
  · intro s f h1 h2; unfold deserialize; rw [h1, h2]
  · intro s b h1 h2 h3; unfold deserialize; rw [h1, h2, h3]
  · intro s j h1 h2 h3 h4; unfold deserialize; rw [h1, h2, h3, h4]
  · intro s h1 h2 h3 h4; unfold deserialize; rw [h1, h2, h3, h4]
  · intro s h
    have h42 : deserialize "42" = .int 42 := rfl
    rw [h42] at h
    exact GoValue.noConfusion h

/-- C7 witness: the raw-text fallback instantiated at `"hello"`. -/
theorem c7_decode_precedence_witness :
    goAtoi "hello" = none ∧ deserialize "hello" = GoValue.str "hello" :=
  ⟨rfl, c7_decode_precedence.2.2.2.2.1 "hello" rfl rfl rfl rfl⟩

/-- C8: `Set` with non-positive ttl fails with the invalid-argument error,
and every failing `Set` — non-positive ttl, serialization failure, or
storage failure — leaves the cache state exactly as it was and fires no
hook. -/
theorem c8_set_all_or_nothing (l : LRU) (k : String) (v : GoValue) (ttl now : Int) :
    (ttl ≤ 0 → l.Set k v ttl now = (.error .invalidTTL, l, [])) ∧
    (∀ e, (l.Set k v ttl now).1 = .error e →
      (l.Set k v ttl now).2.1 = l ∧ (l.Set k v ttl now).2.2 = []) := by
  constructor
  · intro h
    unfold LRU.Set
    rw [if_pos h]
  · intro e he
    unfold LRU.Set at he ⊢
    by_cases httl : ttl ≤ 0
    · rw [if_pos httl]
      exact ⟨rfl, rfl⟩
    · rw [if_neg httl] at he ⊢
      cases hser : serialize v with
      | error msg => exact ⟨rfl, rfl⟩
      | ok data =>
        rw [hser] at he
        dsimp only at he ⊢
        cases hins : storeInsert l.store { key := k, value := data, expiresAt := now + ttl } with
        | error msg => exact ⟨rfl, rfl⟩
        | ok st' =>
          rw [hins] at he
          exact absurd he (by simp)

/-- C8 witness: the ttl-0 branch and the serialization-failure branch on a
fresh cache. -/
theorem c8_set_all_or_nothing_witness :
    (emptyLRU 2).Set "k" (GoValue.str "x") 0 5 =
      (.error .invalidTTL, emptyLRU 2, []) ∧
    ((emptyLRU 2).Set "k" GoValue.unencodable 7 0).2.1 = emptyLRU 2 ∧
    ((emptyLRU 2).Set "k" GoValue.unencodable 7 0).2.2 = [] :=
  ⟨(c8_set_all_or_nothing (emptyLRU 2) "k" (GoValue.str "x") 0 5).1 (by decide),
   (c8_set_all_or_nothing (emptyLRU 2) "k" GoValue.unencodable 7 0).2
     (.serializeFail "json: unsupported type") rfl⟩

/-- C9: a `Get` of a present, unexpired key returns the decoded value and is
a pure reader — the successor state is the argument state itself (Item
Store, Expiry Index and timestamps untouched) and the hook is not invoked. -/
theorem c9_get_frame (l : LRU) (k : String) (item : CacheItem) (now : Int)
    (hfind : storeFirst l.store k = some item) (hlive : ¬ item.expiresAt < now) :
    l.Get k now = (.ok (deserialize item.value), l, []) := by
  unfold LRU.Get
  rw [hfind]
  dsimp only
  rw [if_neg hlive]

/-- C9 witness: reading a live key at time 3 with expiry 5. -/
theorem c9_get_frame_witness :
    (((emptyLRU 2).Set "a" (GoValue.int 1) 5 0).2.1.Get "a" 3) =
      (.ok (GoValue.int 1), ((emptyLRU 2).Set "a" (GoValue.int 1) 5 0).2.1, []) :=
  c9_get_frame _ "a" { key := "a", value := "1", expiresAt := 5 } 3 (by rfl) (by decide)

/-- C10: `Delete` and `Clear` never invoke the eviction hook; the hook fires
only on the internal removal path (`removeItem`, reached from capacity
eviction in `Set`, lazy expiration in `Get`, and the background sweep), and
every invocation passes `nil` as the value argument. -/
theorem c10_hook_discipline (l : LRU) (k : String) (v : GoValue) (ttl now : Int) :
    (l.Delete k).2.2 = [] ∧
    l.Clear.2.2 = [] ∧
    ((l.Set k v ttl now).2.2).map Prod.snd =
      List.replicate ((l.Set k v ttl now).2.2).length none ∧
    ((l.Get k now).2.2).map Prod.snd =
      List.replicate ((l.Get k now).2.2).length none ∧
    ((l.removeExpiredItems now).2).map Prod.snd =
      List.replicate ((l.removeExpiredItems now).2).length none := by
  refine ⟨?_, rfl, ?_, ?_, ?_⟩
  · unfold LRU.Delete
    cases storeDelete l.store k <;> rfl
  · exact snd_none_map _ (set_snd_none l k v ttl now)
  · exact snd_none_map _ (get_snd_none l k now)
  · exact snd_none_map _ (sweepSteps_snd_none _ l now)

/-- The engine state after `Set a@1s, Set b@2s, Set c@3s` (capacity 10) and
then `Delete b`: the heap array still holds `b`, whose map entry is gone,
so its priority reads as the zero time. -/
def c6State : LRU :=
  (((((emptyLRU 10).Set "a" (GoValue.int 1) 1 0).2.1.Set "b"
      (GoValue.int 1) 2 0).2.1.Set "c" (GoValue.int 1) 3 0).2.1.Delete "b").2.1

/-- C6 (counterexample): after the public sequence Set a, Set b, Set c,
Delete b, repeatedly popping the Expiry Index yields `a, b, c` with
recorded timestamps `1, 0, 3` — not non-decreasing (the dangling `b` reads
the zero time), refuting the claimed ordering invariant. -/
theorem c6_counterexample :
    popAll (priOf c6State.expHeap) c6State.expHeap.items = ["a", "b", "c"] ∧
    (popAll (priOf c6State.expHeap) c6State.expHeap.items).map
      (priOf c6State.expHeap) = [1, 0, 3] ∧
    ¬ List.Pairwise (fun x y => priOf c6State.expHeap x ≤ priOf c6State.expHeap y)
      (popAll (priOf c6State.expHeap) c6State.expHeap.items) := by
  refine ⟨rfl, rfl, ?_⟩
  intro hp
  rw [show popAll (priOf c6State.expHeap) c6State.expHeap.items = ["a", "b", "c"]
    from rfl] at hp
  have h1 := List.rel_of_pairwise_cons hp (List.mem_cons_self _ _)
  revert h1
  decide

/-- C6 (amended): whenever the Expiry Index satisfies the binary-heap
ordering (`heapProp`) — as it does after any sequence of `Set`s of distinct
fresh keys — repeatedly popping yields keys in non-decreasing recorded
`expiresAt` order; `Delete` (and re-`Set`) leave keys in the heap array
without a map entry, breaking `heapProp` and with it the pop ordering. -/
theorem c6_amended_pop_ordered (h : ExpirationHeap)
    (hp : heapProp (priOf h) h.items) :
    List.Pairwise (fun a b => priOf h a ≤ priOf h b) (popAll (priOf h) h.items) :=
  popAll_sorted (priOf h) h.items hp

/-- C6 witness: a two-element heap in heap order pops in order. -/
theorem c6_amended_pop_ordered_witness :
    heapProp (priOf { items := ["a", "b"], expiresAt := [("a", 1), ("b", 2)] })
      ["a", "b"] ∧
    List.Pairwise
      (fun a b => priOf { items := ["a", "b"], expiresAt := [("a", 1), ("b", 2)] } a ≤
        priOf { items := ["a", "b"], expiresAt := [("a", 1), ("b", 2)] } b)
      (popAll (priOf { items := ["a", "b"], expiresAt := [("a", 1), ("b", 2)] })
        ["a", "b"]) :=
  ⟨by decide, c6_amended_pop_ordered
    { items := ["a", "b"], expiresAt := [("a", 1), ("b", 2)] } (by decide)⟩

/-! ## Round-tripping `%d` output through `Atoi` (for claim C4) -/

theorem digitVal_digitChar (d : Nat) (h : d < 10) :
    digitVal (digitChar d) = d := by
  interval_cases d <;> rfl

theorem digitChar_isDigit (d : Nat) (h : d < 10) :
    (digitChar d).isDigit = true := by
  interval_cases d <;> rfl

theorem digitsToNat_append (xs : List Char) (c : Char) :
    digitsToNat (xs ++ [c]) = 10 * digitsToNat xs + digitVal c := by
  unfold digitsToNat
  rw [List.foldl_append]
  rfl

theorem digitsToNat_natDigitsF (fuel n : Nat) (h : n < fuel) :
    digitsToNat (natDigitsF fuel n) = n := by
  induction fuel generalizing n with
  | zero => omega
  | succ fuel ih =>
    rw [natDigitsF]
    split
    next h10 =>
      have hs : digitsToNat [digitChar n] = digitVal (digitChar n) := by
        unfold digitsToNat
        simp
      rw [hs, digitVal_digitChar n h10]
    next h10 =>
      rw [digitsToNat_append, ih (n / 10) (by omega),
        digitVal_digitChar _ (by omega)]
      omega

theorem natDigitsF_all_digits (fuel n : Nat) (h : n < fuel) :
    ∀ c ∈ natDigitsF fuel n, c.isDigit = true := by
  induction fuel generalizing n with
  | zero => omega
  | succ fuel ih =>
    rw [natDigitsF]
    split
    next h10 =>
      intro c hc
      rw [List.mem_singleton.mp hc]
      exact digitChar_isDigit n h10
    next h10 =>
      intro c hc
      rcases List.mem_append.mp hc with hc | hc
      · exact ih (n / 10) (by omega) c hc
      · rw [List.mem_singleton.mp hc]
        exact digitChar_isDigit _ (by omega)

theorem natDigitsF_ne_nil (fuel n : Nat) (h : n < fuel) :
    natDigitsF fuel n ≠ [] := by
  cases fuel with
  | zero => omega
  | succ fuel =>
    rw [natDigitsF]
    split
    · exact List.cons_ne_nil _ _
    · simp

theorem isDigit_ne_sign (c : Char) (h : c.isDigit = true) : c ≠ '-' ∧ c ≠ '+' := by
  constructor
  · intro hc; rw [hc] at h; exact absurd h (by decide)
  · intro hc; rw [hc] at h; exact absurd h (by decide)

theorem goAtoiDigits_natDigits (neg : Bool) (m : Nat) (hm : (m : Int) ≤ 2 ^ 63) :
    goAtoiDigits neg (natDigits m) =
      if neg then
        some (-(m : Int))
      else if (2 ^ 63 : Int) - 1 < (m : Int) then none else some (m : Int) := by
  unfold goAtoiDigits natDigits
  rw [if_neg (natDigitsF_ne_nil (m + 1) m (by omega))]
  rw [if_pos (List.all_eq_true.mpr (natDigitsF_all_digits (m + 1) m (by omega)))]
  rw [digitsToNat_natDigitsF (m + 1) m (by omega)]
  cases neg with
  | true =>
    rw [if_neg (show ¬(-((m : Int)) < -(2 ^ 63)) from by omega)]
  | false =>
    rfl

theorem goAtoi_intToStr (n : Int) (h1 : -(2 ^ 63) ≤ n) (h2 : n ≤ 2 ^ 63 - 1) :
    goAtoi (intToStr n) = some n := by
  unfold intToStr
  by_cases hn : n < 0
  · rw [if_pos hn]
    show goAtoiDigits true (natDigits n.natAbs) = some n
    rw [goAtoiDigits_natDigits true n.natAbs (by omega)]
    rw [if_pos rfl]
    congr 1
    omega
  · rw [if_neg hn]
    obtain ⟨c, cs, hcons⟩ :=
      List.exists_cons_of_ne_nil (natDigitsF_ne_nil (n.natAbs + 1) n.natAbs (by omega))
    have hcd : c.isDigit = true := by
      apply natDigitsF_all_digits (n.natAbs + 1) n.natAbs (by omega)
      rw [show natDigitsF (n.natAbs + 1) n.natAbs = c :: cs from hcons]
      exact List.mem_cons_self _ _
    obtain ⟨hminus, hplus⟩ := isDigit_ne_sign c hcd
    show goAtoi (String.mk (natDigits n.natAbs)) = some n
    unfold goAtoi
    show (match natDigits n.natAbs with
      | [] => none
      | c :: rest =>
        if c = '-' then goAtoiDigits true rest
        else if c = '+' then goAtoiDigits false rest
        else goAtoiDigits false (c :: rest)) = some n
    rw [show natDigits n.natAbs = c :: cs from hcons]
    dsimp only
    rw [if_neg hminus, if_neg hplus]
    rw [show c :: cs = natDigits n.natAbs from hcons.symm]
    rw [goAtoiDigits_natDigits false n.natAbs (by omega)]
    rw [if_neg (show ¬(false = true) by decide),
      if_neg (show ¬((2 ^ 63 : Int) - 1 < (n.natAbs : Int)) by omega)]
    congr 1
    omega

theorem evictLoop_noop (l : LRU)
    (h : ¬ ((l.expHeap.items.length : Int) > l.size)) :
    LRU.evictLoop l = (l, []) := by
  unfold LRU.evictLoop
  exact evictSteps_noop _ _ h

/-- C4 (counterexample): `Set`-then-`Get` is not observably value-preserving
for every encodable value: storing the *string* `"t"` returns the *boolean*
`true` (since `strconv.ParseBool` accepts `"t"`), which differs from the
original both as a value and in its re-encoded bytes (`"true"` vs `"t"`). -/
theorem c4_counterexample :
    ((((emptyLRU 3).Set "k" (GoValue.str "t") 60 0).2.1.Get "k" 0).1 =
      .ok (GoValue.bool true)) ∧
    GoValue.bool true ≠ GoValue.str "t" ∧
    serialize (GoValue.bool true) ≠ serialize (GoValue.str "t") := by
  refine ⟨rfl, ?_, ?_⟩
  · intro h
    cases h
  · intro h
    have hstr : ("true" : String) = "t" := by injection h
    exact absurd hstr (by decide)

/-- C4 (amended): `Set(key, value, ttl>0)` immediately followed by
`Get(key)` returns the original value exactly, provided no capacity
eviction is triggered and the value survives decode-by-guessing: a 64-bit
integer, a boolean, or a string whose text does not itself parse as an
integer, float, boolean or JSON document.  (Parse-ambiguous strings come
back as the parsed value — see the counterexample; values whose encoding is
lossy, e.g. floats under `%f`, are likewise outside the exact-roundtrip
fragment.) -/
theorem c4_amended_roundtrip (l : LRU) (k : String) (v : GoValue)
    (ttl now now2 : Int) (hk : k ≠ "") (httl : 0 < ttl)
    (hcap : (l.expHeap.items.length : Int) + 1 ≤ l.size)
    (hlive : ¬ (now + ttl < now2))
    (hv : (∃ n : Int, v = .int n ∧ -(2 ^ 63) ≤ n ∧ n ≤ 2 ^ 63 - 1) ∨
      (∃ b : Bool, v = .bool b) ∨
      (∃ s : String, v = .str s ∧ goAtoi s = none ∧ goParseFloat s = none ∧
        goParseBool s = none ∧ goJsonUnmarshal s = none)) :
    (l.Set k v ttl now).1 = .ok () ∧
    ((l.Set k v ttl now).2.1.Get k now2).1 = .ok v := by
  have hser : ∃ data, serialize v = .ok data ∧ deserialize data = v := by
    rcases hv with ⟨n, rfl, hb1, hb2⟩ | ⟨b, rfl⟩ | ⟨s, rfl, ha, hf, hb, hj⟩
    · refine ⟨intToStr n, rfl, ?_⟩
      unfold deserialize
      rw [goAtoi_intToStr n hb1 hb2]
    · exact ⟨if b then "true" else "false", rfl, by cases b <;> rfl⟩
    · refine ⟨s, rfl, ?_⟩
      unfold deserialize
      rw [ha, hf, hb, hj]
  obtain ⟨data, hserEq, hdes⟩ := hser
  have hins : storeInsert l.store { key := k, value := data, expiresAt := now + ttl } =
      .ok (storePut l.store { key := k, value := data, expiresAt := now + ttl }) := by
    unfold storeInsert
    rw [if_neg hk]
  unfold LRU.Set
  rw [if_neg (not_le.mpr httl), hserEq]
  dsimp only
  rw [hins]
  dsimp only
  rw [evictLoop_noop]
  · refine ⟨rfl, ?_⟩
    unfold LRU.Get
    dsimp only
    rw [show storeFirst (storePut l.store { key := k, value := data, expiresAt := now + ttl }) k =
      some { key := k, value := data, expiresAt := now + ttl } from
      storeFirst_put_self l.store _]
    dsimp only
    rw [if_neg hlive, hdes]
  · dsimp only
    rw [heapPush_length]
    omega

/-- C4 witness: the amended round-trip at the integer 42. -/
theorem c4_amended_roundtrip_witness :
    ((emptyLRU 3).Set "a" (GoValue.int 42) 5 0).1 = .ok () ∧
    (((emptyLRU 3).Set "a" (GoValue.int 42) 5 0).2.1.Get "a" 4).1 =
      .ok (GoValue.int 42) :=
  c4_amended_roundtrip (emptyLRU 3) "a" (GoValue.int 42) 5 0 4 (by decide)
    (by decide) (by decide) (by decide)
    (Or.inl ⟨42, rfl, by decide, by decide⟩)

/-! ## Sequences of `Set`s (for claim C2) -/

/-- One `Set` call: its arguments, with `now` the `time.Now()` it observes. -/
structure SetOp where
  key : String
  val : GoValue
  ttl : Int
  now : Int

/-- The expiration timestamp a `Set` records. -/
def expOf (op : SetOp) : Int := op.now + op.ttl

/-- The `CacheItem` a successful `Set` writes. -/
def itemOf (op : SetOp) : CacheItem :=
  { key := op.key, value := (serialize op.val).toOption.getD "",
    expiresAt := expOf op }

/-- Run a list of `Set` calls in order, collecting all hook events. -/
def setSeq (l : LRU) : List SetOp → LRU × List (String × Option GoValue)
  | [] => (l, [])
  | op :: ops =>
    ((setSeq (l.Set op.key op.val op.ttl op.now).2.1 ops).1,
     (l.Set op.key op.val op.ttl op.now).2.2 ++
       (setSeq (l.Set op.key op.val op.ttl op.now).2.1 ops).2)

theorem setSeq_append (l : LRU) (xs ys : List SetOp) :
    setSeq l (xs ++ ys) =
      ((setSeq (setSeq l xs).1 ys).1,
       (setSeq l xs).2 ++ (setSeq (setSeq l xs).1 ys).2) := by
  induction xs generalizing l with
  | nil => rfl
  | cons op xs ih =>
    show setSeq l (op :: (xs ++ ys)) = _
    rw [setSeq, ih, setSeq]
    simp [List.append_assoc]

theorem storePut_fresh (st : List CacheItem) (it : CacheItem)
    (h : it.key ∉ st.map (fun x => x.key)) : storePut st it = st ++ [it] := by
  induction st with
  | nil => rfl
  | cons x st ih =>
    rw [List.map_cons] at h
    have hx : x.key ≠ it.key := fun hc => h (by rw [hc]; exact List.mem_cons_self _ _)
    have hx' : ¬ (x.key = it.key) := hx
    rw [show storePut (x :: st) it = x :: storePut st it from by simp [storePut, hx']]
    rw [ih (fun hc => h (List.mem_cons_of_mem _ hc))]
    rfl

theorem mapSet_fresh (m : List (String × Int)) (k : String) (t : Int)
    (h : mapLookup m k = none) : mapSet m k t = m ++ [(k, t)] := by
  induction m with
  | nil => rfl
  | cons p m ih =>
    rw [mapLookup] at h
    by_cases hp : p.1 = k
    · rw [if_pos hp] at h
      cases h
    · rw [if_neg hp] at h
      rw [show mapSet (p :: m) k t = p :: mapSet m k t from by simp [mapSet, hp]]
      rw [ih h]
      rfl

theorem heapProp_congr (pri pri' : String → Int) (l : List String)
    (hagree : ∀ x ∈ l, pri' x = pri x) (hp : heapProp pri l) :
    heapProp pri' l := by
  intro k hk hk0
  rw [hagree _ (nth_mem l k hk), hagree _ (nth_mem l _ (by omega))]
  exact hp k hk hk0

theorem mapLookup_of_mem_nodup (m : List (String × Int)) (k : String) (t : Int)
    (hnd : (m.map Prod.fst).Nodup) (h : (k, t) ∈ m) : mapLookup m k = some t := by
  induction m with
  | nil => cases h
  | cons p m ih =>
    rw [List.map_cons] at hnd
    obtain ⟨h1, h2⟩ := List.nodup_cons.mp hnd
    rcases List.mem_cons.mp h with h | h
    · rw [mapLookup, ← h]
      rw [if_pos rfl]
    · rw [mapLookup]
      by_cases hp : p.1 = k
      · exact absurd (by rw [hp]; exact List.mem_map.mpr ⟨(k, t), h, rfl⟩) h1
      · rw [if_neg hp]
        exact ih h2 h

theorem storeFirst_of_mem_nodup (st : List CacheItem) (it : CacheItem)
    (hnd : (st.map (fun x => x.key)).Nodup) (h : it ∈ st) :
    storeFirst st it.key = some it := by
  induction st with
  | nil => cases h
  | cons x st ih =>
    rw [List.map_cons] at hnd
    obtain ⟨h1, h2⟩ := List.nodup_cons.mp hnd
    rcases List.mem_cons.mp h with h | h
    · rw [h, storeFirst, if_pos rfl]
    · rw [storeFirst]
      by_cases hx : x.key = it.key
      · exact absurd (by rw [hx]; exact List.mem_map.mpr ⟨it, h, rfl⟩) h1
      · rw [if_neg hx]
        exact ih h2 h

theorem storeErase_of_not_mem (st : List CacheItem) (k : String)
    (hnone : ∀ y ∈ st, y.key ≠ k) : storeErase st k = st := by
  induction st with
  | nil => rfl
  | cons y st ih =>
    rw [show storeErase (y :: st) k = y :: storeErase st k from by
      simp [storeErase, hnone y (List.mem_cons_self _ _)]]
    rw [ih (fun z hz => hnone z (List.mem_cons_of_mem _ hz))]

theorem storeErase_length (st : List CacheItem) (k : String)
    (hnd : (st.map (fun x => x.key)).Nodup) (h : (storeFirst st k).isSome) :
    (storeErase st k).length + 1 = st.length := by
  induction st with
  | nil => cases h
  | cons x st ih =>
    rw [List.map_cons] at hnd
    obtain ⟨h1, h2⟩ := List.nodup_cons.mp hnd
    by_cases hx : x.key = k
    · rw [show storeErase (x :: st) k = storeErase st k from by simp [storeErase, hx]]
      have hnone : ∀ y ∈ st, y.key ≠ k := by
        intro y hy hc
        exact h1 (by rw [hx, ← hc]; exact List.mem_map.mpr ⟨y, hy, rfl⟩)
      rw [storeErase_of_not_mem st k hnone, List.length_cons]
    · rw [show storeErase (x :: st) k = x :: storeErase st k from by
        simp [storeErase, hx]]
      rw [storeFirst, if_neg hx] at h
      rw [List.length_cons, List.length_cons, ih h2 h]

theorem mapLookup_eq_none (m : List (String × Int)) (k : String)
    (h : k ∉ m.map Prod.fst) : mapLookup m k = none := by
  induction m with
  | nil => rfl
  | cons p m ih =>
    rw [List.map_cons] at h
    have hp : ¬ (p.1 = k) := fun hc => h (by rw [← hc]; exact List.mem_cons_self _ _)
    rw [mapLookup, if_neg hp]
    exact ih (fun hc => h (List.mem_cons_of_mem _ hc))

/-- When the heap holds exactly one element over capacity and the root is a
valid stored key, the eviction loop pops exactly once: it removes the root
from the heap, the store and the `expiresAt` map, and fires the hook once. -/
theorem evictLoop_one (l : LRU)
    (hsz : 0 ≤ l.size)
    (hlen : (l.expHeap.items.length : Int) = l.size + 1)
    (hne : (heapPop (priOf l.expHeap) l.expHeap.items).1 ≠ "")
    (hsome : (storeFirst l.store (heapPop (priOf l.expHeap) l.expHeap.items).1).isSome) :
    LRU.evictLoop l =
      ({ size := l.size,
         store := storeErase l.store (heapPop (priOf l.expHeap) l.expHeap.items).1,
         expHeap :=
           { items := (heapPop (priOf l.expHeap) l.expHeap.items).2,
             expiresAt :=
               mapDel l.expHeap.expiresAt
                 (heapPop (priOf l.expHeap) l.expHeap.items).1 } },
       [((heapPop (priOf l.expHeap) l.expHeap.items).1, none)]) := by
  obtain ⟨m, hm⟩ : ∃ m, l.expHeap.items.length = m + 1 :=
    ⟨l.expHeap.items.length - 1, by omega⟩
  have hdel : storeDelete l.store (heapPop (priOf l.expHeap) l.expHeap.items).1 =
      .ok (storeErase l.store (heapPop (priOf l.expHeap) l.expHeap.items).1) := by
    unfold storeDelete
    rw [if_neg hne, if_pos hsome]
  have hpr : l.popAndRemove =
      ({ size := l.size,
         store := storeErase l.store (heapPop (priOf l.expHeap) l.expHeap.items).1,
         expHeap :=
           { items := (heapPop (priOf l.expHeap) l.expHeap.items).2,
             expiresAt :=
               mapDel l.expHeap.expiresAt
                 (heapPop (priOf l.expHeap) l.expHeap.items).1 } },
       [((heapPop (priOf l.expHeap) l.expHeap.items).1, none)]) := by
    unfold LRU.popAndRemove LRU.removeItem
    dsimp only
    rw [hdel]
  unfold LRU.evictLoop
  rw [hm, LRU.evictSteps, if_pos (show (l.expHeap.items.length : Int) > l.size by omega)]
  rw [hpr]
  dsimp only
  rw [evictSteps_noop m _ (by
    dsimp only
    rw [heapPop_length, hm]
    push_cast
    omega)]
  simp

/-- A `Set` of a valid, serialisable entry that stays within capacity: the
full successor state, spelled out. -/
theorem set_fresh (l : LRU) (op : SetOp) (d : String)
    (hkey : op.key ≠ "") (httl : 0 < op.ttl)
    (hser : serialize op.val = .ok d)
    (hcap : (l.expHeap.items.length : Int) + 1 ≤ l.size) :
    l.Set op.key op.val op.ttl op.now =
      (.ok (),
       { size := l.size,
         store := storePut l.store (itemOf op),
         expHeap :=
           { items :=
               heapPush
                 (fun s => mapRead (mapSet l.expHeap.expiresAt op.key (expOf op)) s)
                 l.expHeap.items op.key,
             expiresAt := mapSet l.expHeap.expiresAt op.key (expOf op) } },
       []) := by
  have hitem : itemOf op = { key := op.key, value := d, expiresAt := op.now + op.ttl } := by
    unfold itemOf expOf
    rw [hser]
    rfl
  have hexp : expOf op = op.now + op.ttl := rfl
  have hins : storeInsert l.store { key := op.key, value := d, expiresAt := op.now + op.ttl } =
      .ok (storePut l.store { key := op.key, value := d, expiresAt := op.now + op.ttl }) := by
    unfold storeInsert
    rw [if_neg hkey]
  rw [hitem, hexp]
  unfold LRU.Set
  rw [if_neg (not_le.mpr httl), hser]
  dsimp only
  rw [hins]
  dsimp only
  rw [evictLoop_noop]
  · dsimp only
    rw [heapPush_length]
    omega

/-- A `Set` of a valid, serialisable entry, with the eviction loop left
symbolic: the error paths are ruled out and the loop runs on the pushed
state. -/
theorem set_step (l : LRU) (op : SetOp) (d : String)
    (hkey : op.key ≠ "") (httl : 0 < op.ttl)
    (hser : serialize op.val = .ok d) :
    l.Set op.key op.val op.ttl op.now =
      (.ok (),
       (LRU.evictLoop
         { size := l.size,
           store := storePut l.store (itemOf op),
           expHeap :=
             { items :=
                 heapPush
                   (fun s => mapRead (mapSet l.expHeap.expiresAt op.key (expOf op)) s)
                   l.expHeap.items op.key,
               expiresAt := mapSet l.expHeap.expiresAt op.key (expOf op) } }).1,
       (LRU.evictLoop
         { size := l.size,
           store := storePut l.store (itemOf op),
           expHeap :=
             { items :=
                 heapPush
                   (fun s => mapRead (mapSet l.expHeap.expiresAt op.key (expOf op)) s)
                   l.expHeap.items op.key,
               expiresAt := mapSet l.expHeap.expiresAt op.key (expOf op) } }).2) := by
  have hitem : itemOf op = { key := op.key, value := d, expiresAt := op.now + op.ttl } := by
    unfold itemOf expOf
    rw [hser]
    rfl
  have hexp : expOf op = op.now + op.ttl := rfl
  have hins : storeInsert l.store { key := op.key, value := d, expiresAt := op.now + op.ttl } =
      .ok (storePut l.store { key := op.key, value := d, expiresAt := op.now + op.ttl }) := by
    unfold storeInsert
    rw [if_neg hkey]
  rw [hitem, hexp]
  unfold LRU.Set
  rw [if_neg (not_le.mpr httl), hser]
  dsimp only
  rw [hins]

/-- A run of `Set`s on fresh, valid, serialisable keys that stays within
capacity: the store and the expiry map grow in call order, the heap stays a
heap and holds exactly the old keys plus the new ones, and no hook fires. -/
theorem setSeq_fresh (ops : List SetOp) :
    ∀ l : LRU,
    ((l.expHeap.items.length + ops.length : Int) ≤ l.size) →
    ((ops.map (fun op => op.key)).Nodup) →
    (∀ op ∈ ops,
      op.key ∉ l.store.map (fun x => x.key) ∧
      op.key ∉ l.expHeap.items ∧
      mapLookup l.expHeap.expiresAt op.key = none) →
    (∀ op ∈ ops, op.key ≠ "") →
    (∀ op ∈ ops, 0 < op.ttl) →
    (∀ op ∈ ops, ∃ d, serialize op.val = .ok d) →
    heapProp (priOf l.expHeap) l.expHeap.items →
    (setSeq l ops).1.size = l.size ∧
    (setSeq l ops).1.store = l.store ++ ops.map itemOf ∧
    (setSeq l ops).1.expHeap.expiresAt =
      l.expHeap.expiresAt ++ ops.map (fun op => (op.key, expOf op)) ∧
    (setSeq l ops).1.expHeap.items.Perm
      (l.expHeap.items ++ ops.map (fun op => op.key)) ∧
    heapProp (priOf (setSeq l ops).1.expHeap) (setSeq l ops).1.expHeap.items ∧
    (setSeq l ops).2 = [] := by
  induction ops with
  | nil =>
    intro l _ _ _ _ _ _ hheap
    exact ⟨rfl, by simp [setSeq], by simp [setSeq], by simp [setSeq], hheap, rfl⟩
  | cons op ops ih =>
    intro l hcap hdist hfresh hkeys httl hser hheap
    obtain ⟨d, hd⟩ := hser op (List.mem_cons_self _ _)
    have hkey : op.key ≠ "" := hkeys op (List.mem_cons_self _ _)
    have hcap1 : (l.expHeap.items.length : Int) + 1 ≤ l.size := by
      rw [List.length_cons] at hcap
      push_cast at hcap ⊢
      omega
    have hset := set_fresh l op d hkey (httl op (List.mem_cons_self _ _)) hd hcap1
    obtain ⟨hfst, hfit, hflk⟩ := hfresh op (List.mem_cons_self _ _)
    rw [List.map_cons] at hdist
    obtain ⟨hne, hdist'⟩ := List.nodup_cons.mp hdist
    have hput : storePut l.store (itemOf op) = l.store ++ [itemOf op] :=
      storePut_fresh l.store (itemOf op) hfst
    have hmset : mapSet l.expHeap.expiresAt op.key (expOf op) =
        l.expHeap.expiresAt ++ [(op.key, expOf op)] :=
      mapSet_fresh l.expHeap.expiresAt op.key (expOf op) hflk
    have hpagree : ∀ x ∈ l.expHeap.items,
        mapRead (mapSet l.expHeap.expiresAt op.key (expOf op)) x =
          priOf l.expHeap x := by
      intro x hx
      have hxne : x ≠ op.key := fun hc => hfit (hc ▸ hx)
      show (mapLookup (mapSet l.expHeap.expiresAt op.key (expOf op)) x).getD 0 = _
      rw [mapLookup_set_ne l.expHeap.expiresAt op.key (expOf op) x hxne]
      rfl
    have hheap1 : heapProp
        (fun s => mapRead (mapSet l.expHeap.expiresAt op.key (expOf op)) s)
        (heapPush (fun s => mapRead (mapSet l.expHeap.expiresAt op.key (expOf op)) s)
          l.expHeap.items op.key) :=
      heapPush_heap _ _ _
        (heapProp_congr (priOf l.expHeap) _ l.expHeap.items hpagree hheap)
    rw [setSeq, hset]
    dsimp only
    have hih := ih
      { size := l.size,
        store := storePut l.store (itemOf op),
        expHeap :=
          { items :=
              heapPush
                (fun s => mapRead (mapSet l.expHeap.expiresAt op.key (expOf op)) s)
                l.expHeap.items op.key,
            expiresAt := mapSet l.expHeap.expiresAt op.key (expOf op) } }
      (by dsimp only
          rw [heapPush_length, List.length_cons] at *
          push_cast at hcap ⊢
          omega)
      hdist'
      (by intro op' hop'
          have hne' : op'.key ≠ op.key := fun hc =>
            hne (hc ▸ List.mem_map.mpr ⟨op', hop', rfl⟩)
          obtain ⟨hs, hi, hm⟩ := hfresh op' (List.mem_cons_of_mem _ hop')
          refine ⟨?_, ?_, ?_⟩
          · dsimp only
            rw [hput, List.map_append]
            intro hc
            rcases List.mem_append.mp hc with hc | hc
            · exact hs hc
            · rcases List.mem_singleton.mp hc with hc
              exact hne' hc
          · dsimp only
            intro hc
            have := (heapPush_perm _ l.expHeap.items op.key).mem_iff.mp hc
            rcases List.mem_append.mp this with hc' | hc'
            · exact hi hc'
            · exact hne' (List.mem_singleton.mp hc')
          · dsimp only
            rw [mapLookup_set_ne l.expHeap.expiresAt op.key (expOf op) op'.key hne']
            exact hm)
      (fun op' hop' => hkeys op' (List.mem_cons_of_mem _ hop'))
      (fun op' hop' => httl op' (List.mem_cons_of_mem _ hop'))
      (fun op' hop' => hser op' (List.mem_cons_of_mem _ hop'))
      hheap1
    obtain ⟨hsz, hst, hmp, hpm, hhp, hev⟩ := hih
    refine ⟨hsz, ?_, ?_, ?_, hhp, by rw [hev, List.append_nil]⟩
    · rw [hst]
      dsimp only
      rw [hput, List.append_assoc, List.map_cons, List.singleton_append]
    · rw [hmp]
      dsimp only
      rw [hmset, List.append_assoc, List.map_cons, List.singleton_append]
    · refine hpm.trans ?_
      dsimp only
      rw [List.map_cons, show (op.key :: ops.map fun op => op.key) =
        [op.key] ++ ops.map fun op => op.key from rfl, ← List.append_assoc]
      exact (heapPush_perm _ l.expHeap.items op.key).append_right _

/-- C2: starting from an empty cache of capacity `c`, a sequence of `c + 1`
`Set`s of distinct, non-empty, serialisable keys with positive TTLs leaves
exactly `c` keys retrievable: some inserted key is evicted, it carries the
earliest recorded expiration among the `c + 1`, the eviction hook fires
exactly once — for that key with a nil value —, the store holds `c` items,
`Get` of the evicted key fails with `NotFound`, and `Get` of every other
inserted key (before its expiration) succeeds with the stored value. -/
theorem c2_capacity_eviction (c : Nat) (ops : List SetOp)
    (hc : 0 < c)
    (hlen : ops.length = c + 1)
    (hdistA : (ops.map (fun op => op.key)).Nodup)
    (hkeys : ∀ op ∈ ops, op.key ≠ "")
    (httl : ∀ op ∈ ops, 0 < op.ttl)
    (hser : ∀ op ∈ ops, ∃ d, serialize op.val = .ok d) :
    ∃ evicted, evicted ∈ ops ∧
      (setSeq (emptyLRU c) ops).2 = [(evicted.key, none)] ∧
      (∀ op ∈ ops, expOf evicted ≤ expOf op) ∧
      (setSeq (emptyLRU c) ops).1.Len = c ∧
      (∀ now2, ((setSeq (emptyLRU c) ops).1.Get evicted.key now2).1 =
        .error .notFound) ∧
      (∀ op ∈ ops, op.key ≠ evicted.key → ∀ now2, ¬ (expOf op < now2) →
        ((setSeq (emptyLRU c) ops).1.Get op.key now2).1 =
          .ok (deserialize (itemOf op).value)) := by
  rcases List.eq_nil_or_concat ops with rfl | ⟨init, last, rfl⟩
  · rw [List.length_nil] at hlen
    exact absurd hlen (by omega)
  rw [List.concat_eq_append] at hlen hdistA hkeys httl hser ⊢
  have hinitlen : init.length = c := by
    rw [List.length_append, List.length_singleton] at hlen
    omega
  have hmem_init : ∀ op ∈ init, op ∈ init ++ [last] :=
    fun op h => List.mem_append.mpr (Or.inl h)
  have hmem_last : last ∈ init ++ [last] :=
    List.mem_append.mpr (Or.inr (List.mem_singleton.mpr rfl))
  have hdist := hdistA
  rw [List.map_append] at hdist
  obtain ⟨hd1, hd2, hdisj⟩ := List.nodup_append.mp hdist
  have hlastfresh : last.key ∉ init.map (fun op => op.key) := by
    intro hmem
    exact hdisj hmem (by simp)
  have hpre := setSeq_fresh init (emptyLRU c)
    (by simp [emptyLRU, hinitlen])
    hd1
    (fun op hop => ⟨by simp [emptyLRU], by simp [emptyLRU], rfl⟩)
    (fun op hop => hkeys op (hmem_init op hop))
    (fun op hop => httl op (hmem_init op hop))
    (fun op hop => hser op (hmem_init op hop))
    (by intro k hk hk0; simp [emptyLRU] at hk)
  obtain ⟨lc, hlc⟩ : ∃ x, (setSeq (emptyLRU c) init).1 = x := ⟨_, rfl⟩
  rw [hlc] at hpre
  obtain ⟨hsz, hst, hmp, hpm, hhp, hev⟩ := hpre
  have hszc : lc.size = (c : Int) := hsz
  have hstore : lc.store = init.map itemOf := hst
  have hmap : lc.expHeap.expiresAt = init.map (fun op => (op.key, expOf op)) := hmp
  have hperm : lc.expHeap.items.Perm (init.map (fun op => op.key)) := hpm
  have hlclen : lc.expHeap.items.length = c := by
    rw [hperm.length_eq, List.length_map, hinitlen]
  have hlast_not_items : last.key ∉ lc.expHeap.items := by
    intro hmem
    exact hlastfresh (hperm.subset hmem)
  have hlast_lookup : mapLookup lc.expHeap.expiresAt last.key = none := by
    rw [hmap]
    apply mapLookup_eq_none
    rw [List.map_map]
    exact hlastfresh
  obtain ⟨dl, hdl⟩ := hser last hmem_last
  have hsetlast := set_step lc last dl (hkeys last hmem_last) (httl last hmem_last) hdl
  set M1 := mapSet lc.expHeap.expiresAt last.key (expOf last) with hM1def
  set items1 := heapPush (fun s => mapRead M1 s) lc.expHeap.items last.key with hitems1def
  set L1 : LRU :=
    { size := lc.size, store := storePut lc.store (itemOf last),
      expHeap := { items := items1, expiresAt := M1 } } with hL1def
  have hM1eq : M1 = (init ++ [last]).map (fun op => (op.key, expOf op)) := by
    rw [hM1def, mapSet_fresh _ _ _ hlast_lookup, hmap, List.map_append]
    rfl
  have hM1nodup : (M1.map Prod.fst).Nodup := by
    rw [hM1eq, List.map_map]
    exact hdistA
  have hlookup : ∀ op ∈ init ++ [last], mapLookup M1 op.key = some (expOf op) := by
    intro op hop
    exact mapLookup_of_mem_nodup M1 op.key (expOf op) hM1nodup
      (by rw [hM1eq]; exact List.mem_map_of_mem _ hop)
  have hPval : ∀ op ∈ init ++ [last], priOf L1.expHeap op.key = expOf op := by
    intro op hop
    show (mapLookup M1 op.key).getD 0 = expOf op
    rw [hlookup op hop]
    rfl
  have hitems1len : items1.length = c + 1 := by
    rw [hitems1def, heapPush_length, hlclen]
  have hL1len : L1.expHeap.items.length = c + 1 := hitems1len
  have hne0 : L1.expHeap.items ≠ [] := by
    show items1 ≠ []
    exact List.length_pos.mp (by rw [hitems1len]; omega)
  have hheap1 : heapProp (priOf L1.expHeap) L1.expHeap.items := by
    show heapProp (priOf L1.expHeap) items1
    have hagree : ∀ x ∈ lc.expHeap.items, priOf L1.expHeap x = priOf lc.expHeap x := by
      intro x hx
      have hxne : x ≠ last.key := fun hcx => hlast_not_items (hcx ▸ hx)
      show (mapLookup M1 x).getD 0 = (mapLookup lc.expHeap.expiresAt x).getD 0
      rw [hM1def, mapLookup_set_ne _ _ _ _ hxne]
    exact heapPush_heap (priOf L1.expHeap) lc.expHeap.items last.key
      (heapProp_congr (priOf lc.expHeap) (priOf L1.expHeap) lc.expHeap.items hagree hhp)
  have hperm1 : L1.expHeap.items.Perm ((init ++ [last]).map (fun op => op.key)) := by
    show items1.Perm _
    refine (heapPush_perm _ _ _).trans ?_
    rw [List.map_append]
    exact List.Perm.append_right _ hperm
  have hrootmem : (heapPop (priOf L1.expHeap) L1.expHeap.items).1 ∈ L1.expHeap.items := by
    rw [heapPop_fst _ _ hne0]
    exact nth_mem _ 0 (by rw [hL1len]; omega)
  have hrootkeys : (heapPop (priOf L1.expHeap) L1.expHeap.items).1 ∈
      (init ++ [last]).map (fun op => op.key) := hperm1.subset hrootmem
  obtain ⟨ope, hope_mem, hope_key⟩ := List.mem_map.mp hrootkeys
  have hroot_ne : (heapPop (priOf L1.expHeap) L1.expHeap.items).1 ≠ "" := by
    rw [← hope_key]
    exact hkeys ope hope_mem
  have hfr : (itemOf last).key ∉ lc.store.map (fun x => x.key) := by
    rw [hstore, List.map_map]
    exact hlastfresh
  have hput : storePut lc.store (itemOf last) = (init ++ [last]).map itemOf := by
    rw [storePut_fresh lc.store (itemOf last) hfr, hstore, List.map_append]
    rfl
  have hsnodup : (((init ++ [last]).map itemOf).map (fun x => x.key)).Nodup := by
    rw [List.map_map]
    exact hdistA
  have hsf : storeFirst ((init ++ [last]).map itemOf)
      (heapPop (priOf L1.expHeap) L1.expHeap.items).1 = some (itemOf ope) := by
    rw [← hope_key]
    exact storeFirst_of_mem_nodup _ (itemOf ope) hsnodup (List.mem_map_of_mem _ hope_mem)
  have hsome1 : (storeFirst L1.store
      (heapPop (priOf L1.expHeap) L1.expHeap.items).1).isSome := by
    rw [show L1.store = storePut lc.store (itemOf last) from rfl, hput, hsf]
    rfl
  have hevl := evictLoop_one L1
    (by show (0 : Int) ≤ lc.size; rw [hszc]; omega)
    (by show (L1.expHeap.items.length : Int) = lc.size + 1; rw [hL1len, hszc]; omega)
    hroot_ne hsome1
  have hrun : setSeq (emptyLRU c) (init ++ [last]) =
      (({ size := L1.size,
          store := storeErase L1.store (heapPop (priOf L1.expHeap) L1.expHeap.items).1,
          expHeap :=
            { items := (heapPop (priOf L1.expHeap) L1.expHeap.items).2,
              expiresAt :=
                mapDel L1.expHeap.expiresAt
                  (heapPop (priOf L1.expHeap) L1.expHeap.items).1 } } : LRU),
       [((heapPop (priOf L1.expHeap) L1.expHeap.items).1, none)]) := by
    rw [setSeq_append, hlc, hev]
    rw [show setSeq lc [last] =
        ((lc.Set last.key last.val last.ttl last.now).2.1,
         (lc.Set last.key last.val last.ttl last.now).2.2 ++ []) from rfl]
    rw [hsetlast]
    dsimp only
    rw [hevl]
    simp
  rw [hrun]
  refine ⟨ope, hope_mem, ?_, ?_, ?_, ?_, ?_⟩
  · rw [hope_key]
  · intro op hop
    have hmin := heapPop_min (priOf L1.expHeap) L1.expHeap.items hheap1 hne0 op.key
      (hperm1.mem_iff.mpr (List.mem_map_of_mem _ hop))
    rw [hPval op hop] at hmin
    rw [← hope_key] at hmin
    rw [hPval ope hope_mem] at hmin
    exact hmin
  · show (storeErase L1.store (heapPop (priOf L1.expHeap) L1.expHeap.items).1).length = c
    rw [show L1.store = storePut lc.store (itemOf last) from rfl, hput]
    have hlen2 := storeErase_length ((init ++ [last]).map itemOf)
      (heapPop (priOf L1.expHeap) L1.expHeap.items).1 hsnodup (by rw [hsf]; rfl)
    rw [List.length_map, List.length_append, List.length_singleton, hinitlen] at hlen2
    omega
  · intro now2
    have hnone : storeFirst (storeErase L1.store
        (heapPop (priOf L1.expHeap) L1.expHeap.items).1) ope.key = none := by
      rw [hope_key]
      exact storeFirst_erase_self _ _
    unfold LRU.Get
    dsimp only
    rw [hnone]
  · intro op hop hne2 now2 hlive
    have hne3 : op.key ≠ (heapPop (priOf L1.expHeap) L1.expHeap.items).1 := by
      rw [← hope_key]
      exact hne2
    have hfind : storeFirst (storeErase L1.store
        (heapPop (priOf L1.expHeap) L1.expHeap.items).1) op.key = some (itemOf op) := by
      rw [storeFirst_erase_ne _ _ _ hne3]
      rw [show L1.store = storePut lc.store (itemOf last) from rfl, hput]
      exact storeFirst_of_mem_nodup _ (itemOf op) hsnodup (List.mem_map_of_mem _ hop)
    unfold LRU.Get
    dsimp only
    rw [hfind]
    dsimp only
    have hlive' : ¬ ((itemOf op).expiresAt < now2) := hlive
    rw [if_neg hlive']

/-- C2 witness: a capacity-1 cache receiving two distinct keys evicts one
of them, with all the claimed observations. -/
theorem c2_capacity_eviction_witness :
    ∃ evicted, evicted ∈
        [({ key := "a", val := GoValue.int 1, ttl := 5, now := 0 } : SetOp),
         { key := "b", val := GoValue.int 2, ttl := 7, now := 0 }] ∧
      (setSeq (emptyLRU 1)
        [({ key := "a", val := GoValue.int 1, ttl := 5, now := 0 } : SetOp),
         { key := "b", val := GoValue.int 2, ttl := 7, now := 0 }]).2 =
        [(evicted.key, none)] ∧
      (∀ op ∈ [({ key := "a", val := GoValue.int 1, ttl := 5, now := 0 } : SetOp),
         { key := "b", val := GoValue.int 2, ttl := 7, now := 0 }],
        expOf evicted ≤ expOf op) ∧
      (setSeq (emptyLRU 1)
        [({ key := "a", val := GoValue.int 1, ttl := 5, now := 0 } : SetOp),
         { key := "b", val := GoValue.int 2, ttl := 7, now := 0 }]).1.Len = 1 ∧
      (∀ now2, ((setSeq (emptyLRU 1)
        [({ key := "a", val := GoValue.int 1, ttl := 5, now := 0 } : SetOp),
         { key := "b", val := GoValue.int 2, ttl := 7, now := 0 }]).1.Get
          evicted.key now2).1 = .error .notFound) ∧
      (∀ op ∈ [({ key := "a", val := GoValue.int 1, ttl := 5, now := 0 } : SetOp),
         { key := "b", val := GoValue.int 2, ttl := 7, now := 0 }],
        op.key ≠ evicted.key → ∀ now2, ¬ (expOf op < now2) →
        ((setSeq (emptyLRU 1)
          [({ key := "a", val := GoValue.int 1, ttl := 5, now := 0 } : SetOp),
           { key := "b", val := GoValue.int 2, ttl := 7, now := 0 }]).1.Get
            op.key now2).1 = .ok (deserialize (itemOf op).value)) :=
  c2_capacity_eviction 1
    [({ key := "a", val := GoValue.int 1, ttl := 5, now := 0 } : SetOp),
     { key := "b", val := GoValue.int 2, ttl := 7, now := 0 }]
    (by decide) rfl (by decide) (by decide) (by decide)
    (by
      intro op hop
      rcases List.mem_cons.mp hop with rfl | hop
      · exact ⟨"1", rfl⟩
      rcases List.mem_cons.mp hop with rfl | hop
      · exact ⟨"2", rfl⟩
      cases hop)

end LRUCache
